import Mathlib

/-!
Verification of the tree-to-graph flattening algorithm of the rcct-visualization
repository (src/components/ThoughtTree.tsx, `processNode`) and of the
`ThoughtNode` model (src/models/ThoughtNode.ts, `createSelfReference`).

ThoughtNode objects are JavaScript objects whose `subThoughts` and `aliasNode`
fields hold references to other node objects (possibly forming cycles through
`aliasNode`), so the embedding models the object heap explicitly: a `Store` is a
list of node records and references are indices into it.  The flattening pass
mutates two shared arrays (`d3Nodes`, `d3Links`); we thread them (together with
the heap, which the pass only reads) through an explicit state `FState`.

The recursion of `processNode` is not structural (the alias branch re-enters
`processNode` at the same depth), so the embedding takes an explicit `fuel`
bound on the call depth; `none` means the fuel was exhausted.  We prove that
sufficient fuel always exists and that the result does not depend on the fuel,
so the fueled function determines the behaviour of the source program.
-/

namespace RCCT

/-- The closed tag set of node types (ThoughtNodeType in ThoughtNode.ts). -/
inductive ThoughtNodeType where
  | question
  | hypothesis
  | evaluation
  | conclusion
  | metaReflection
  | recursiveReference
deriving DecidableEq, Repr

/-- Evaluation status enumeration (EvaluationStatus in ThoughtNode.ts). -/
inductive EvaluationStatus where
  | pending
  | inProgress
  | complete
  | error
  | memoized
deriving DecidableEq, Repr

/-- Node metadata; `createdAt` (a Date) is modelled as a number. -/
structure Metadata where
  createdAt : Nat
  evaluationStatus : EvaluationStatus
  recursionDepth : Nat
  memoizationKey : Option String
deriving DecidableEq, Repr

/-- The three-domain isomorphic representations; payloads are opaque and
modelled as optional strings. -/
structure IsoReprs where
  computational : Option String
  cognitive : Option String
  representational : Option String
deriving DecidableEq, Repr

/-- A ThoughtNode record.  `subThoughts` and `aliasNode` hold references
(indices into the store) to other nodes, mirroring the object references of the
TypeScript class. -/
structure TNode where
  id : String
  content : String
  type : ThoughtNodeType
  subThoughts : List Nat
  aliasNode : Option Nat
  isomorphicRepresentations : IsoReprs
  metadata : Metadata
deriving DecidableEq, Repr

/-- The object heap: reference `r` denotes the node `store.getD r defaultTNode`. -/
abbrev Store := List TNode

/-- Placeholder node used for out-of-range references; valid inputs never
dereference it. -/
def defaultTNode : TNode :=
  { id := ""
    content := ""
    type := .question
    subThoughts := []
    aliasNode := none
    isomorphicRepresentations := ⟨none, none, none⟩
    metadata := ⟨0, .pending, 0, none⟩ }

/-- A D3Node as built by `processNode` (ThoughtTree.tsx); `originalNode` is a
reference to the wrapped ThoughtNode.  Layout coordinates are set later by the
simulation and play no role in the flattening. -/
structure D3Node where
  id : String
  reflexive : Bool
  type : ThoughtNodeType
  content : String
  status : EvaluationStatus
  recursionDepth : Nat
  originalNode : Nat
deriving DecidableEq, Repr

/-- A D3Link as built by `processNode`. -/
structure D3Link where
  source : D3Node
  target : D3Node
  isAlias : Bool
deriving DecidableEq, Repr

/-- The mutable state of one flattening pass: the heap of input nodes (which
the pass only reads) and the two output arrays. -/
structure FState where
  store : Store
  d3Nodes : List D3Node
  d3Links : List D3Link
deriving DecidableEq, Repr

/-- The D3Node literal constructed at the top of `processNode`. -/
def mkD3 (ref : Nat) (n : TNode) : D3Node :=
  { id := n.id
    reflexive := n.aliasNode.isSome
    type := n.type
    content := n.content
    status := n.metadata.evaluationStatus
    recursionDepth := n.metadata.recursionDepth
    originalNode := ref }

/-- The `d3Nodes.push(d3Node)` operation. -/
def pushNode (st : FState) (d : D3Node) : FState :=
  { st with d3Nodes := st.d3Nodes ++ [d] }

/-- The `d3Links.push(link)` operation. -/
def pushLink (st : FState) (l : D3Link) : FState :=
  { st with d3Links := st.d3Links ++ [l] }

/-- The predicate of the existing-link check in the alias branch:
`(link.source.id === a && link.target.id === b) ||
 (link.target.id === a && link.source.id === b)`. -/
def linkMatches (a b : String) (l : D3Link) : Bool :=
  decide ((l.source.id = a ∧ l.target.id = b) ∨ (l.target.id = a ∧ l.source.id = b))

/-- The `node.subThoughts.forEach(...)` loop of `processNode`: run the
continuation `f` (a recursive call one level deeper) on each child in order and
push a structural link for every child that yields a D3Node.  `none` propagates
fuel exhaustion. -/
def processChildren (f : Nat → FState → Option (FState × Option D3Node))
    (parent : D3Node) : List Nat → FState → Option FState
  | [], st => some st
  | c :: cs, st =>
    match f c st with
    | none => none
    | some (st₁, sub) =>
      let st₂ := match sub with
        | some subNode => pushLink st₁ ⟨parent, subNode, false⟩
        | none => st₁
      processChildren f parent cs st₂

/-- The body of `processNode` (ThoughtTree.tsx, lines 65-113), parameterised by
the recursive call `rec` (which runs with one unit of fuel fewer).  The node
dereference `st.store.getD ref defaultTNode` plays the role of the `node`
parameter, `mkD3 ref (...)` the role of the local `d3Node`. -/
def processNodeStep (maxD : Nat)
    (rec : Nat → Nat → FState → Option (FState × Option D3Node))
    (ref depth : Nat) (st : FState) : Option (FState × Option D3Node) :=
  if depth > maxD then some (st, none)
  else
    match processChildren (fun c s => rec c (depth + 1) s)
        (mkD3 ref (st.store.getD ref defaultTNode))
        (st.store.getD ref defaultTNode).subThoughts
        (pushNode st (mkD3 ref (st.store.getD ref defaultTNode))) with
    | none => none
    | some st₂ =>
      match (st.store.getD ref defaultTNode).aliasNode with
      | none => some (st₂, some (mkD3 ref (st.store.getD ref defaultTNode)))
      | some aref =>
        if st₂.d3Links.any (linkMatches (st.store.getD ref defaultTNode).id
            (st₂.store.getD aref defaultTNode).id) then
          some (st₂, some (mkD3 ref (st.store.getD ref defaultTNode)))
        else
          match st₂.d3Nodes.find?
              (fun n => n.id == (st₂.store.getD aref defaultTNode).id) with
          | some aliasD3 =>
            some (pushLink st₂ ⟨mkD3 ref (st.store.getD ref defaultTNode), aliasD3, true⟩,
              some (mkD3 ref (st.store.getD ref defaultTNode)))
          | none =>
            match rec aref depth st₂ with
            | none => none
            | some (st₃, some aliasD3) =>
              some (pushLink st₃ ⟨mkD3 ref (st.store.getD ref defaultTNode), aliasD3, true⟩,
                some (mkD3 ref (st.store.getD ref defaultTNode)))
            | some (st₃, none) =>
              some (st₃, some (mkD3 ref (st.store.getD ref defaultTNode)))

/-- Fueled embedding of `processNode`.  The fuel bounds the depth of nested
recursive calls; `none` reports exhaustion and is proved unreachable for
sufficiently large fuel. -/
def processNode (maxD : Nat) : Nat → Nat → Nat → FState → Option (FState × Option D3Node)
  | 0, _, _, _ => none
  | fuel + 1, ref, depth, st =>
      processNodeStep maxD (fun r d s => processNode maxD fuel r d s) ref depth st

/-- The loop `rootThoughts.forEach(rootThought => processNode(rootThought))`. -/
def flattenRoots (maxD fuel : Nat) : List Nat → FState → Option FState
  | [], st => some st
  | r :: rs, st =>
    match processNode maxD fuel r 0 st with
    | none => none
    | some (st', _) => flattenRoots maxD fuel rs st'

/-- The state at the start of a flattening pass: empty output arrays. -/
def initState (store : Store) : FState := ⟨store, [], []⟩

/-- One whole flattening pass over the root list. -/
def flatten (store : Store) (maxD fuel : Nat) (roots : List Nat) : Option FState :=
  flattenRoots maxD fuel roots (initState store)

/-- The ids of the GraphNodes produced so far. -/
def idsOf (st : FState) : List String := st.d3Nodes.map D3Node.id

/-- The endpoint ids of a link. -/
def edgeOf (l : D3Link) : String × String := (l.source.id, l.target.id)

/-- The node object constructed by `ThoughtNode.createSelfReference`
(ThoughtNode.ts, lines 77-89): id and content derived from the receiver, type
`recursive-reference`, no children, metadata spread-copied with
`recursionDepth` incremented, and `aliasNode` assigned to the receiver. -/
def selfRefNode (store : Store) (ref : Nat) : TNode :=
  let n := store.getD ref defaultTNode
  { id := n.id ++ "-self-ref"
    content := "Reference to " ++ n.content
    type := .recursiveReference
    subThoughts := []
    aliasNode := some ref
    isomorphicRepresentations := ⟨none, none, none⟩
    metadata := { n.metadata with recursionDepth := n.metadata.recursionDepth + 1 } }

/-- Embedding of `ThoughtNode.createSelfReference`: allocate the fresh node on
the heap and return the extended heap together with the reference to the new
node. -/
def createSelfReference (store : Store) (ref : Nat) : Store × Nat :=
  (store ++ [selfRefNode store ref], store.length)

/-! ### Heap access helper lemmas -/

theorem getD_append_lt (l l' : List TNode) (i : Nat) (h : i < l.length) :
    (l ++ l').getD i defaultTNode = l.getD i defaultTNode := by
  simp [List.getD, List.getElem?_append, h]

theorem getD_append_self (l : List TNode) (x : TNode) :
    (l ++ [x]).getD l.length defaultTNode = x := by
  simp [List.getD]

/-! ### Claim C8: createSelfReference builds the documented node -/

/-- C8: `createSelfReference` returns a newly allocated node (a reference
distinct from the receiver's), of type `recursive-reference`, whose
`aliasNode` is exactly the receiver and whose `metadata.recursionDepth` is the
receiver's plus one; every pre-existing node of the heap, in particular the
receiver, is unchanged. -/
theorem c8_createSelfReference (store : Store) (ref : Nat) (h : ref < store.length) :
    (createSelfReference store ref).2 ≠ ref ∧
    ((createSelfReference store ref).1.getD (createSelfReference store ref).2 defaultTNode)
      = selfRefNode store ref ∧
    (selfRefNode store ref).type = ThoughtNodeType.recursiveReference ∧
    (selfRefNode store ref).aliasNode = some ref ∧
    (selfRefNode store ref).metadata.recursionDepth
      = (store.getD ref defaultTNode).metadata.recursionDepth + 1 ∧
    (∀ i, i < store.length →
      (createSelfReference store ref).1.getD i defaultTNode = store.getD i defaultTNode) := by
  refine ⟨Nat.ne_of_gt h, ?_, rfl, rfl, rfl, ?_⟩
  · exact getD_append_self store (selfRefNode store ref)
  · intro i hi
    exact getD_append_lt store [selfRefNode store ref] i hi

/-- C8 witness at a concrete one-node heap. -/
theorem c8_createSelfReference_witness :
    (0 : Nat) < ([{ defaultTNode with id := "n" }] : Store).length ∧
    (createSelfReference [{ defaultTNode with id := "n" }] 0).2 ≠ 0 :=
  ⟨by decide, (c8_createSelfReference [{ defaultTNode with id := "n" }] 0 (by decide)).1⟩

/-! ### Claim C10: createSelfReference id scheme and duplicate ids -/

/-- C10: the self-reference node's id is the receiver's id with "-self-ref"
appended, and its metadata copies the receiver's `createdAt`,
`evaluationStatus` and `memoizationKey`; calling `createSelfReference` twice on
the same node yields two distinct node objects (distinct references) carrying
identical ids. -/
theorem c10_selfref_id (store : Store) (ref : Nat) (h : ref < store.length) :
    (selfRefNode store ref).id = (store.getD ref defaultTNode).id ++ "-self-ref" ∧
    (selfRefNode store ref).metadata.createdAt
      = (store.getD ref defaultTNode).metadata.createdAt ∧
    (selfRefNode store ref).metadata.evaluationStatus
      = (store.getD ref defaultTNode).metadata.evaluationStatus ∧
    (selfRefNode store ref).metadata.memoizationKey
      = (store.getD ref defaultTNode).metadata.memoizationKey ∧
    (createSelfReference (createSelfReference store ref).1 ref).2
      ≠ (createSelfReference store ref).2 ∧
    ((createSelfReference (createSelfReference store ref).1 ref).1.getD
        (createSelfReference (createSelfReference store ref).1 ref).2 defaultTNode).id
      = ((createSelfReference (createSelfReference store ref).1 ref).1.getD
          (createSelfReference store ref).2 defaultTNode).id := by
  have hlt : ref < ((createSelfReference store ref).1).length := by
    simp only [createSelfReference, List.length_append, List.length_cons, List.length_nil]
    omega
  have hsame : ((createSelfReference store ref).1).getD ref defaultTNode
      = store.getD ref defaultTNode := getD_append_lt _ _ ref h
  refine ⟨rfl, rfl, rfl, rfl, by simp [createSelfReference], ?_⟩
  have h1 : (createSelfReference (createSelfReference store ref).1 ref).1.getD
      (createSelfReference (createSelfReference store ref).1 ref).2 defaultTNode
      = selfRefNode (createSelfReference store ref).1 ref :=
    getD_append_self _ _
  have hlen : (createSelfReference store ref).2 < ((createSelfReference store ref).1).length := by
    simp [createSelfReference]
  have h2 : (createSelfReference (createSelfReference store ref).1 ref).1.getD
      (createSelfReference store ref).2 defaultTNode
      = ((createSelfReference store ref).1).getD (createSelfReference store ref).2 defaultTNode :=
    getD_append_lt _ _ _ hlen
  have h3 : ((createSelfReference store ref).1).getD
      (createSelfReference store ref).2 defaultTNode = selfRefNode store ref :=
    getD_append_self _ _
  rw [h1, h2, h3]
  simp only [selfRefNode]
  rw [hsame]

/-- C10 witness at a concrete one-node heap. -/
theorem c10_selfref_id_witness :
    (0 : Nat) < ([{ defaultTNode with id := "n" }] : Store).length ∧
    (selfRefNode [{ defaultTNode with id := "n" }] 0).id = "n" ++ "-self-ref" :=
  ⟨by decide, (c10_selfref_id [{ defaultTNode with id := "n" }] 0 (by decide)).1⟩

/-! ### State growth: the pass only appends to the output arrays -/

/-- State `st'` extends `st`: same heap, and the output arrays of `st` are an
initial segment of those of `st'`. -/
def StExtends (st st' : FState) : Prop :=
  st'.store = st.store ∧
  (∃ t, st'.d3Nodes = st.d3Nodes ++ t) ∧
  (∃ t, st'.d3Links = st.d3Links ++ t)

theorem stExtends_rfl (st : FState) : StExtends st st :=
  ⟨Eq.refl st.store, ⟨[], by simp⟩, ⟨[], by simp⟩⟩

theorem StExtends.trans {s1 s2 s3 : FState} (h1 : StExtends s1 s2) (h2 : StExtends s2 s3) :
    StExtends s1 s3 := by
  obtain ⟨hs1, ⟨t1, hn1⟩, ⟨u1, hl1⟩⟩ := h1
  obtain ⟨hs2, ⟨t2, hn2⟩, ⟨u2, hl2⟩⟩ := h2
  exact ⟨hs2.trans hs1,
    ⟨t1 ++ t2, by rw [hn2, hn1, List.append_assoc]⟩,
    ⟨u1 ++ u2, by rw [hl2, hl1, List.append_assoc]⟩⟩

theorem stExtends_pushNode (st : FState) (d : D3Node) : StExtends st (pushNode st d) :=
  ⟨rfl, ⟨[d], rfl⟩, ⟨[], by simp [pushNode]⟩⟩

theorem stExtends_pushLink (st : FState) (l : D3Link) : StExtends st (pushLink st l) :=
  ⟨rfl, ⟨[], by simp [pushLink]⟩, ⟨[l], rfl⟩⟩

theorem processChildren_extends
    {f : Nat → FState → Option (FState × Option D3Node)}
    (hf : ∀ c s r, f c s = some r → StExtends s r.1)
    (parent : D3Node) (cs : List Nat) :
    ∀ st st', processChildren f parent cs st = some st' → StExtends st st' := by
  induction cs with
  | nil =>
    intro st st' h
    simp only [processChildren, Option.some.injEq] at h
    rw [← h]; exact stExtends_rfl st
  | cons c cs ih =>
    intro st st' h
    simp only [processChildren] at h
    cases hc : f c st with
    | none => rw [hc] at h; exact absurd h (by simp)
    | some r =>
      rw [hc] at h
      obtain ⟨st₁, sub⟩ := r
      have h1 : StExtends st st₁ := hf c st _ hc
      cases sub with
      | none => exact h1.trans (ih st₁ st' h)
      | some subNode => exact h1.trans ((stExtends_pushLink st₁ _).trans (ih _ st' h))

theorem processNodeStep_extends
    {rec : Nat → Nat → FState → Option (FState × Option D3Node)}
    (hrec : ∀ r d s rr, rec r d s = some rr → StExtends s rr.1)
    (maxD ref depth : Nat) (st : FState) (r : FState × Option D3Node)
    (h : processNodeStep maxD rec ref depth st = some r) : StExtends st r.1 := by
  unfold processNodeStep at h
  split at h
  next hd =>
    simp only [Option.some.injEq] at h
    rw [← h]; exact stExtends_rfl st
  next hd =>
    split at h
    next hpc => exact absurd h (by simp)
    next st₂ hpc =>
      have h2 : StExtends st st₂ :=
        (stExtends_pushNode st _).trans
          (processChildren_extends (fun c s rr hc => hrec c (depth + 1) s rr hc) _ _ _ _ hpc)
      split at h
      next hal =>
        simp only [Option.some.injEq] at h
        rw [← h]; exact h2
      next aref hal =>
        split at h
        next hlk =>
          simp only [Option.some.injEq] at h
          rw [← h]; exact h2
        next hlk =>
          split at h
          next aliasD3 hfd =>
            simp only [Option.some.injEq] at h
            rw [← h]; exact h2.trans (stExtends_pushLink st₂ _)
          next hfd =>
            split at h
            next hrc => exact absurd h (by simp)
            next st₃ aliasD3 hrc =>
              have h3 : StExtends st₂ st₃ := hrec aref depth st₂ (st₃, some aliasD3) hrc
              simp only [Option.some.injEq] at h
              rw [← h]
              exact (h2.trans h3).trans (stExtends_pushLink st₃ _)
            next st₃ hrc =>
              have h3 : StExtends st₂ st₃ := hrec aref depth st₂ (st₃, none) hrc
              simp only [Option.some.injEq] at h
              rw [← h]
              exact h2.trans h3

theorem processNode_extends (maxD : Nat) :
    ∀ (fuel ref depth : Nat) (st : FState) (r : FState × Option D3Node),
      processNode maxD fuel ref depth st = some r → StExtends st r.1 := by
  intro fuel
  induction fuel with
  | zero => intro ref depth st r h; exact absurd h (by simp [processNode])
  | succ fuel ih =>
    intro ref depth st r h
    rw [processNode] at h
    exact processNodeStep_extends (fun a b c d hh => ih a b c d hh) maxD ref depth st r h

theorem flattenRoots_extends (maxD fuel : Nat) (roots : List Nat) :
    ∀ st st', flattenRoots maxD fuel roots st = some st' → StExtends st st' := by
  induction roots with
  | nil =>
    intro st st' h
    simp only [flattenRoots, Option.some.injEq] at h
    rw [← h]; exact stExtends_rfl st
  | cons r rs ih =>
    intro st st' h
    simp only [flattenRoots] at h
    cases hr : processNode maxD fuel r 0 st with
    | none => rw [hr] at h; exact absurd h (by simp)
    | some rr =>
      rw [hr] at h
      exact (processNode_extends maxD fuel r 0 st rr hr).trans (ih rr.1 st' h)

/-! ### Claim C6: the pass never modifies the input nodes -/

/-- C6: the flattening pass is pure with respect to its input: the heap of
input ThoughtNodes (every field of every node) in the final state is exactly
the heap the pass started from; only the two output arrays are written. -/
theorem c6_pure (store : Store) (maxD fuel : Nat) (roots : List Nat) (st : FState)
    (h : flatten store maxD fuel roots = some st) : st.store = store :=
  (flattenRoots_extends maxD fuel roots (initState store) st h).1

/-- C6 witness at a concrete one-node heap. -/
theorem c6_pure_witness :
    (⟨[{ defaultTNode with id := "r" }],
      [mkD3 0 { defaultTNode with id := "r" }], []⟩ : FState).store
      = [{ defaultTNode with id := "r" }] :=
  c6_pure [{ defaultTNode with id := "r" }] 5 9 [0] _ (by decide)

/-! ### Fuel monotonicity and claim C7 (determinism) -/

theorem processChildren_mono
    {f f' : Nat → FState → Option (FState × Option D3Node)}
    (hf : ∀ c s r, f c s = some r → f' c s = some r)
    (parent : D3Node) (cs : List Nat) :
    ∀ st st', processChildren f parent cs st = some st' →
      processChildren f' parent cs st = some st' := by
  induction cs with
  | nil => intro st st' h; exact h
  | cons c cs ih =>
    intro st st' h
    simp only [processChildren] at h ⊢
    cases hc : f c st with
    | none => rw [hc] at h; exact absurd h (by simp)
    | some r =>
      rw [hc] at h
      rw [hf c st r hc]
      obtain ⟨st₁, sub⟩ := r
      cases sub with
      | none => exact ih _ _ h
      | some subNode => exact ih _ _ h

theorem processNodeStep_mono
    {rec rec' : Nat → Nat → FState → Option (FState × Option D3Node)}
    (hrec : ∀ r d s rr, rec r d s = some rr → rec' r d s = some rr)
    (maxD ref depth : Nat) (st : FState) (r : FState × Option D3Node)
    (h : processNodeStep maxD rec ref depth st = some r) :
    processNodeStep maxD rec' ref depth st = some r := by
  unfold processNodeStep at h ⊢
  split at h
  next hd => rw [if_pos hd]; exact h
  next hd =>
    rw [if_neg hd]
    split at h
    next hpc => exact absurd h (by simp)
    next st₂ hpc =>
      have hpc' := processChildren_mono (fun c s rr hc => hrec c (depth + 1) s rr hc)
        _ _ _ _ hpc
      simp only [hpc']
      split at h
      next hal => exact h
      next aref hal =>
        split at h
        next hlk => rw [if_pos hlk]; exact h
        next hlk =>
          rw [if_neg hlk]
          split at h
          next aliasD3 hfd => exact h
          next hfd =>
            split at h
            next hrc => exact absurd h (by simp)
            next st₃ aliasD3 hrc =>
              simp only [hrec aref depth st₂ (st₃, some aliasD3) hrc]
              exact h
            next st₃ hrc =>
              simp only [hrec aref depth st₂ (st₃, none) hrc]
              exact h

theorem processNode_mono_succ (maxD : Nat) :
    ∀ (fuel ref depth : Nat) (st : FState) (r : FState × Option D3Node),
      processNode maxD fuel ref depth st = some r →
      processNode maxD (fuel + 1) ref depth st = some r := by
  intro fuel
  induction fuel with
  | zero => intro ref depth st r h; exact absurd h (by simp [processNode])
  | succ fuel ih =>
    intro ref depth st r h
    rw [processNode] at h ⊢
    exact processNodeStep_mono (fun a b c d hh => ih a b c d hh) maxD ref depth st r h

theorem processNode_mono (maxD : Nat) {fuel fuel' : Nat} (hle : fuel ≤ fuel') :
    ∀ (ref depth : Nat) (st : FState) (r : FState × Option D3Node),
      processNode maxD fuel ref depth st = some r →
      processNode maxD fuel' ref depth st = some r := by
  induction hle with
  | refl => intro ref depth st r h; exact h
  | step _ ih =>
    intro ref depth st r h
    exact processNode_mono_succ maxD _ ref depth st r (ih ref depth st r h)

theorem flattenRoots_mono (maxD : Nat) {fuel fuel' : Nat} (hle : fuel ≤ fuel')
    (roots : List Nat) :
    ∀ st st', flattenRoots maxD fuel roots st = some st' →
      flattenRoots maxD fuel' roots st = some st' := by
  induction roots with
  | nil => intro st st' h; exact h
  | cons r rs ih =>
    intro st st' h
    simp only [flattenRoots] at h ⊢
    cases hr : processNode maxD fuel r 0 st with
    | none => rw [hr] at h; exact absurd h (by simp)
    | some rr =>
      rw [hr] at h
      rw [processNode_mono maxD hle r 0 st rr hr]
      exact ih _ _ h

/-! ### Termination: sufficient fuel always exists (claim C3)

The alias branch calls `processNode` only when the alias target's id is absent
from `d3Nodes`, and every non-truncated call pushes its node's id first, so
along any chain of nested calls the alias steps consume pairwise distinct ids;
structural steps increase the depth, which is capped by `maxVisibleDepth`.  The
measure `(maxD + 2) * missingAfter + (maxD + 1 - depth)` therefore bounds the
recursion depth. -/

/-- All ids a node dereference can produce: the ids in the store, plus the
placeholder id of `defaultTNode`. -/
def storeIds (store : Store) : List String := "" :: store.map TNode.id

/-- Number of dereferenceable ids not yet present in the output node list. -/
def missing (st : FState) : Nat :=
  ((storeIds st.store).toFinset \ (idsOf st).toFinset).card

/-- Same, counting the id `i` as already present. -/
def missingAfter (st : FState) (i : String) : Nat :=
  ((storeIds st.store).toFinset \ insert i (idsOf st).toFinset).card

theorem getD_id_mem_storeIds (store : Store) (r : Nat) :
    (store.getD r defaultTNode).id ∈ storeIds store := by
  by_cases h : r < store.length
  · rw [List.getD_eq_getElem store defaultTNode h]
    exact List.mem_cons_of_mem _ (List.mem_map_of_mem TNode.id (store.getElem_mem h))
  · rw [List.getD_eq_default store defaultTNode (Nat.le_of_not_lt h)]
    exact List.mem_cons_self _ _

theorem missingAfter_le_missing (st : FState) (i : String) :
    missingAfter st i ≤ missing st :=
  Finset.card_le_card
    (Finset.sdiff_subset_sdiff (Finset.Subset.refl _) (Finset.subset_insert _ _))

theorem missing_pushNode (st : FState) (d : D3Node) :
    missing (pushNode st d) = missingAfter st d.id := by
  unfold missing missingAfter
  have h1 : (idsOf (pushNode st d)).toFinset = insert d.id (idsOf st).toFinset := by
    ext x
    simp [idsOf, pushNode, or_comm]
  rw [show (pushNode st d).store = st.store from rfl, h1]

theorem missing_pushLink (st : FState) (l : D3Link) :
    missing (pushLink st l) = missing st := rfl

theorem missing_le_of_extends {st st' : FState} (h : StExtends st st') :
    missing st' ≤ missing st := by
  obtain ⟨hs, ⟨t, hn⟩, -⟩ := h
  unfold missing
  rw [hs]
  refine Finset.card_le_card (Finset.sdiff_subset_sdiff (Finset.Subset.refl _) ?_)
  intro x hx
  simp only [idsOf, List.mem_toFinset, List.mem_map] at hx ⊢
  obtain ⟨n, hn1, hn2⟩ := hx
  exact ⟨n, by rw [hn]; exact List.mem_append_left _ hn1, hn2⟩

theorem missingAfter_succ (st : FState) (i : String)
    (hS : i ∈ storeIds st.store) (hB : i ∉ idsOf st) :
    missingAfter st i + 1 = missing st := by
  unfold missing missingAfter
  have hmem : i ∈ (storeIds st.store).toFinset \ (idsOf st).toFinset := by
    simp only [Finset.mem_sdiff, List.mem_toFinset]
    exact ⟨hS, hB⟩
  have h1 : (storeIds st.store).toFinset \ insert i (idsOf st).toFinset
      = ((storeIds st.store).toFinset \ (idsOf st).toFinset).erase i := by
    ext x
    simp only [Finset.mem_sdiff, Finset.mem_insert, Finset.mem_erase, List.mem_toFinset]
    tauto
  have hpos : 0 < ((storeIds st.store).toFinset \ (idsOf st).toFinset).card :=
    Finset.card_pos.mpr ⟨i, hmem⟩
  rw [h1, Finset.card_erase_of_mem hmem]
  omega

theorem find?_eq_none_not_mem {X : String} {l : List D3Node}
    (h : l.find? (fun n => n.id == X) = none) : X ∉ l.map D3Node.id := by
  intro hmem
  obtain ⟨n, hn, hid⟩ := List.mem_map.mp hmem
  have := List.find?_eq_none.mp h n hn
  simp [hid] at this

theorem processChildren_isSome
    {f : Nat → FState → Option (FState × Option D3Node)}
    (hext : ∀ c s r, f c s = some r → StExtends s r.1)
    (M : Nat) (S : Store)
    (hf : ∀ c s, s.store = S → missing s ≤ M → (f c s).isSome)
    (parent : D3Node) (cs : List Nat) :
    ∀ st, st.store = S → missing st ≤ M →
      (processChildren f parent cs st).isSome := by
  induction cs with
  | nil => intro st _ _; simp [processChildren]
  | cons c cs ih =>
    intro st hS hM
    simp only [processChildren]
    cases hc : f c st with
    | none =>
      have := hf c st hS hM
      rw [hc] at this
      exact absurd this (by simp)
    | some r =>
      obtain ⟨st₁, sub⟩ := r
      have hx : StExtends st st₁ := hext c st _ hc
      have hS₁ : st₁.store = S := by rw [hx.1, hS]
      have hM₁ : missing st₁ ≤ M := le_trans (missing_le_of_extends hx) hM
      cases sub with
      | none => exact ih st₁ hS₁ hM₁
      | some subNode =>
        exact ih _ (by simp [pushLink, hS₁]) (by rw [missing_pushLink]; exact hM₁)

theorem processNode_isSome (maxD : Nat) :
    ∀ (fuel ref depth : Nat) (st : FState),
      (maxD + 2) * missingAfter st (st.store.getD ref defaultTNode).id
        + (maxD + 1 - depth) < fuel →
      (processNode maxD fuel ref depth st).isSome := by
  intro fuel
  induction fuel with
  | zero => intro ref depth st h; exact absurd h (Nat.not_lt_zero _)
  | succ fuel ih =>
    intro ref depth st hbound
    rw [processNode]
    unfold processNodeStep
    by_cases hd : depth > maxD
    · rw [if_pos hd]; simp
    · rw [if_neg hd]
      have hdep : depth ≤ maxD := Nat.le_of_not_lt hd
      have hA : missing (pushNode st (mkD3 ref (st.store.getD ref defaultTNode)))
          = missingAfter st (st.store.getD ref defaultTNode).id :=
        missing_pushNode st _
      set A := missingAfter st (st.store.getD ref defaultTNode).id with hAdef
      have hQfuel : (maxD + 2) * A + (maxD + 1 - depth) ≤ fuel := Nat.lt_succ_iff.mp hbound
      -- every recursive child call succeeds from any state with missing ≤ A
      have hchild : ∀ c s, s.store = st.store → missing s ≤ A →
          (processNode maxD fuel c (depth + 1) s).isSome := by
        intro c s hs hm
        apply ih
        have h1 : missingAfter s (s.store.getD c defaultTNode).id ≤ missing s :=
          missingAfter_le_missing s _
        have h2 : (maxD + 2) * missingAfter s (s.store.getD c defaultTNode).id
            ≤ (maxD + 2) * A :=
          Nat.mul_le_mul_left _ (le_trans h1 hm)
        omega
      split
      next hpc =>
        have := processChildren_isSome
          (fun c s r hc => processNode_extends maxD fuel c (depth + 1) s r hc)
          A st.store hchild
          (mkD3 ref (st.store.getD ref defaultTNode))
          (st.store.getD ref defaultTNode).subThoughts
          (pushNode st (mkD3 ref (st.store.getD ref defaultTNode)))
          rfl (le_of_eq hA)
        rw [hpc] at this
        simp at this
      next st₂ hpc =>
        have hx₂ : StExtends (pushNode st (mkD3 ref (st.store.getD ref defaultTNode))) st₂ :=
          processChildren_extends
            (fun c s r hc => processNode_extends maxD fuel c (depth + 1) s r hc)
            _ _ _ _ hpc
        have hS₂ : st₂.store = st.store := hx₂.1
        have hM₂ : missing st₂ ≤ A := le_trans (missing_le_of_extends hx₂) (le_of_eq hA)
        split
        next hal => simp
        next aref hal =>
          split
          next hlk => simp
          next hlk =>
            split
            next aliasD3 hfd => simp
            next hfd =>
              have hrec : (processNode maxD fuel aref depth st₂).isSome := by
                apply ih
                have hnm : (st₂.store.getD aref defaultTNode).id ∉ idsOf st₂ :=
                  find?_eq_none_not_mem hfd
                have hin : (st₂.store.getD aref defaultTNode).id ∈ storeIds st₂.store :=
                  getD_id_mem_storeIds st₂.store aref
                have hsucc : missingAfter st₂ (st₂.store.getD aref defaultTNode).id + 1
                    = missing st₂ := missingAfter_succ st₂ _ hin hnm
                have h2 : (maxD + 2) * (missingAfter st₂ (st₂.store.getD aref defaultTNode).id + 1)
                    ≤ (maxD + 2) * A := Nat.mul_le_mul_left _ (by omega)
                rw [Nat.mul_add, Nat.mul_one] at h2
                omega
              split
              next hrc =>
                have hrc' : processNode maxD fuel aref depth st₂ = none := hrc
                rw [hrc'] at hrec
                simp at hrec
              next st₃ aliasD3 hrc => simp
              next st₃ hrc => simp

theorem flattenRoots_isSome (maxD fuel : Nat) (roots : List Nat) :
    ∀ st, (maxD + 2) * missing st + (maxD + 2) ≤ fuel →
      (flattenRoots maxD fuel roots st).isSome := by
  induction roots with
  | nil => intro st _; simp [flattenRoots]
  | cons r rs ih =>
    intro st hfuel
    simp only [flattenRoots]
    have hr : (processNode maxD fuel r 0 st).isSome := by
      apply processNode_isSome
      have h1 : missingAfter st (st.store.getD r defaultTNode).id ≤ missing st :=
        missingAfter_le_missing st _
      have h2 : (maxD + 2) * missingAfter st (st.store.getD r defaultTNode).id
          ≤ (maxD + 2) * missing st := Nat.mul_le_mul_left _ h1
      omega
    cases hrc : processNode maxD fuel r 0 st with
    | none => rw [hrc] at hr; exact absurd hr (by simp)
    | some rr =>
      apply ih
      have hx : StExtends st rr.1 := processNode_extends maxD fuel r 0 st rr hrc
      have := missing_le_of_extends hx
      have h2 : (maxD + 2) * missing rr.1 ≤ (maxD + 2) * missing st :=
        Nat.mul_le_mul_left _ this
      omega

/-- C3: for every finite forest (any heap, any root list — the subThoughts
acyclicity assumed by the claim is not even needed) and every depth bound, the
flattening pass terminates: some finite fuel lets every recursive call
complete, producing the (finite) node and link lists.  Structural descent is
capped by the depth bound and each alias recursion targets an id not yet in
the node list, which the callee immediately pushes, so nesting is bounded. -/
theorem c3_terminates (store : Store) (maxD : Nat) (roots : List Nat) :
    ∃ fuel st, flatten store maxD fuel roots = some st := by
  refine ⟨(maxD + 2) * missing (initState store) + (maxD + 2), ?_⟩
  have := flattenRoots_isSome maxD
    ((maxD + 2) * missing (initState store) + (maxD + 2)) roots
    (initState store) (le_refl _)
  exact Option.isSome_iff_exists.mp this

/-- C7: the flattening is deterministic.  The embedding is a function of its
inputs, and the auxiliary fuel bound does not influence the result: any two
fuel values that let the pass complete yield the same final state — hence the
same node list and the same link list, and in particular the same node set and
link set. -/
theorem c7_deterministic (store : Store) (maxD f1 f2 : Nat) (roots : List Nat)
    (st1 st2 : FState)
    (h1 : flatten store maxD f1 roots = some st1)
    (h2 : flatten store maxD f2 roots = some st2) : st1 = st2 := by
  have g1 : flatten store maxD (max f1 f2) roots = some st1 :=
    flattenRoots_mono maxD (Nat.le_max_left f1 f2) roots _ _ h1
  have g2 : flatten store maxD (max f1 f2) roots = some st2 :=
    flattenRoots_mono maxD (Nat.le_max_right f1 f2) roots _ _ h2
  rw [g1] at g2
  exact Option.some.inj g2

/-- C7 witness: two runs with different fuel on a concrete heap produce the
same state. -/
theorem c7_deterministic_witness :
    (⟨[{ defaultTNode with id := "r" }],
      [mkD3 0 { defaultTNode with id := "r" }], []⟩ : FState)
      = ⟨[{ defaultTNode with id := "r" }],
         [mkD3 0 { defaultTNode with id := "r" }], []⟩ :=
  c7_deterministic [{ defaultTNode with id := "r" }] 5 6 9 [0] _ _
    (by decide) (by decide)

/-! ### Depth-bounded structural traversal (specification-side reference)

For alias-free forests the flattener is characterised exactly by this
traversal: `travNode store b r` lists, in emission order, the node ids and the
structural edge endpoints produced by visiting `r` with `b` remaining levels
(`b = maxVisibleDepth + 1 - depth`; `b = 0` means the visit is truncated). -/

def travNode (store : Store) : Nat → Nat → List String × List (String × String)
  | 0, _ => ([], [])
  | b + 1, r =>
    ((store.getD r defaultTNode).id ::
        ((store.getD r defaultTNode).subThoughts.map
          (fun c => (travNode store b c).1)).flatten,
     ((store.getD r defaultTNode).subThoughts.map (fun c =>
        (travNode store b c).2 ++
          if b = 0 then []
          else [((store.getD r defaultTNode).id, (store.getD c defaultTNode).id)])).flatten)

/-- Node ids and structural edges of a whole alias-free flattening pass. -/
def travForest (store : Store) (maxD : Nat) (roots : List Nat) :
    List String × List (String × String) :=
  ((roots.map (fun r => (travNode store (maxD + 1) r).1)).flatten,
   (roots.map (fun r => (travNode store (maxD + 1) r).2)).flatten)

/-- No node of the heap carries an `aliasNode`. -/
def aliasFree (store : Store) : Prop := ∀ n ∈ store, n.aliasNode = none

instance (store : Store) : Decidable (aliasFree store) := by
  unfold aliasFree; infer_instance

/-- The endpoint-id pairs of the links produced so far. -/
def edgesOf (st : FState) : List (String × String) := st.d3Links.map edgeOf

theorem aliasFree_getD {store : Store} (h : aliasFree store) (r : Nat) :
    (store.getD r defaultTNode).aliasNode = none := by
  by_cases hr : r < store.length
  · rw [List.getD_eq_getElem store defaultTNode hr]
    exact h _ (store.getElem_mem hr)
  · rw [List.getD_eq_default store defaultTNode (Nat.le_of_not_lt hr)]
    rfl

theorem idsOf_pushNode (st : FState) (d : D3Node) :
    idsOf (pushNode st d) = idsOf st ++ [d.id] := by
  simp [idsOf, pushNode]

theorem edgesOf_pushNode (st : FState) (d : D3Node) :
    edgesOf (pushNode st d) = edgesOf st := rfl

theorem idsOf_pushLink (st : FState) (l : D3Link) :
    idsOf (pushLink st l) = idsOf st := rfl

theorem edgesOf_pushLink (st : FState) (l : D3Link) :
    edgesOf (pushLink st l) = edgesOf st ++ [edgeOf l] := by
  simp [edgesOf, pushLink]

theorem processChildren_char
    {f : Nat → FState → Option (FState × Option D3Node)}
    (store : Store) (B : Nat)
    (hf : ∀ c s rr, s.store = store → f c s = some rr →
      rr.1.store = store ∧
      idsOf rr.1 = idsOf s ++ (travNode store B c).1 ∧
      edgesOf rr.1 = edgesOf s ++ (travNode store B c).2 ∧
      rr.2 = if B ≠ 0 then some (mkD3 c (store.getD c defaultTNode)) else none)
    (parent : D3Node) (cs : List Nat) :
    ∀ st st', st.store = store → processChildren f parent cs st = some st' →
      st'.store = store ∧
      idsOf st' = idsOf st ++ (cs.map (fun c => (travNode store B c).1)).flatten ∧
      edgesOf st' = edgesOf st ++ (cs.map (fun c =>
        (travNode store B c).2 ++
          if B = 0 then [] else [(parent.id, (store.getD c defaultTNode).id)])).flatten := by
  induction cs with
  | nil =>
    intro st st' hS h
    simp only [processChildren, Option.some.injEq] at h
    rw [← h]
    simp [hS]
  | cons c cs ih =>
    intro st st' hS h
    simp only [processChildren] at h
    cases hc : f c st with
    | none => rw [hc] at h; exact absurd h (by simp)
    | some rr =>
      rw [hc] at h
      obtain ⟨st₁, sub⟩ := rr
      obtain ⟨hS₀, hids₀, hedg₀, hsub₀⟩ := hf c st (st₁, sub) hS hc
      have hS₁ : st₁.store = store := hS₀
      have hids₁ : idsOf st₁ = idsOf st ++ (travNode store B c).1 := hids₀
      have hedg₁ : edgesOf st₁ = edgesOf st ++ (travNode store B c).2 := hedg₀
      have hsub : sub = if B ≠ 0 then some (mkD3 c (store.getD c defaultTNode)) else none :=
        hsub₀
      by_cases hB : B = 0
      · have hsub' : sub = none := by
          rw [hsub, if_neg (by simp [hB])]
        rw [hsub'] at h
        obtain ⟨hS', hids', hedg'⟩ := ih st₁ st' hS₁ h
        refine ⟨hS', ?_, ?_⟩
        · rw [hids', hids₁, List.append_assoc]
          simp only [List.map_cons, List.flatten_cons]
        · rw [hedg', hedg₁, List.append_assoc]
          simp only [List.map_cons, List.flatten_cons]
          simp [hB]
      · have hsub' : sub = some (mkD3 c (store.getD c defaultTNode)) := by
          rw [hsub, if_pos hB]
        rw [hsub'] at h
        obtain ⟨hS', hids', hedg'⟩ :=
          ih (pushLink st₁ ⟨parent, mkD3 c (store.getD c defaultTNode), false⟩) st'
            (by simp [pushLink, hS₁]) h
        refine ⟨hS', ?_, ?_⟩
        · rw [hids', idsOf_pushLink, hids₁, List.append_assoc]
          simp only [List.map_cons, List.flatten_cons]
        · rw [hedg', edgesOf_pushLink, hedg₁]
          simp only [List.map_cons, List.flatten_cons, edgeOf, mkD3, if_neg hB]
          simp [List.append_assoc]

theorem processNode_char (maxD : Nat) :
    ∀ (fuel ref depth : Nat) (st : FState) (r : FState × Option D3Node),
      aliasFree st.store →
      processNode maxD fuel ref depth st = some r →
      r.1.store = st.store ∧
      idsOf r.1 = idsOf st ++ (travNode st.store (maxD + 1 - depth) ref).1 ∧
      edgesOf r.1 = edgesOf st ++ (travNode st.store (maxD + 1 - depth) ref).2 ∧
      r.2 = if depth ≤ maxD
        then some (mkD3 ref (st.store.getD ref defaultTNode)) else none := by
  intro fuel
  induction fuel with
  | zero => intro ref depth st r _ h; exact absurd h (by simp [processNode])
  | succ fuel ih =>
    intro ref depth st r hAF h
    rw [processNode] at h
    unfold processNodeStep at h
    split at h
    next hd =>
      simp only [Option.some.injEq] at h
      rw [← h]
      have hb : maxD + 1 - depth = 0 := by omega
      rw [hb]
      refine ⟨rfl, by simp [travNode], by simp [travNode], ?_⟩
      rw [if_neg (by omega)]
    next hd =>
      have hdep : depth ≤ maxD := Nat.le_of_not_lt hd
      have hb : maxD + 1 - depth = (maxD - depth) + 1 := by omega
      have hbc : maxD + 1 - (depth + 1) = maxD - depth := by omega
      split at h
      next hpc => exact absurd h (by simp)
      next st₂ hpc =>
        have hf : ∀ c s rr, s.store = st.store →
            processNode maxD fuel c (depth + 1) s = some rr →
            rr.1.store = st.store ∧
            idsOf rr.1 = idsOf s ++ (travNode st.store (maxD - depth) c).1 ∧
            edgesOf rr.1 = edgesOf s ++ (travNode st.store (maxD - depth) c).2 ∧
            rr.2 = if (maxD - depth) ≠ 0
              then some (mkD3 c (st.store.getD c defaultTNode)) else none := by
          intro c s rr hs hrr
          obtain ⟨h1, h2, h3, h4⟩ := ih c (depth + 1) s rr (by rw [hs]; exact hAF) hrr
          rw [hs] at h1 h2 h3 h4
          rw [hbc] at h2 h3
          refine ⟨h1, h2, h3, ?_⟩
          rw [h4]
          by_cases hcond : depth + 1 ≤ maxD
          · rw [if_pos hcond, if_pos (by omega)]
          · rw [if_neg hcond, if_neg (by omega)]
        obtain ⟨hS₂, hids₂, hedg₂⟩ := processChildren_char st.store (maxD - depth) hf
          (mkD3 ref (st.store.getD ref defaultTNode))
          (st.store.getD ref defaultTNode).subThoughts
          (pushNode st (mkD3 ref (st.store.getD ref defaultTNode))) st₂
          rfl hpc
        rw [aliasFree_getD hAF ref] at h
        simp only [Option.some.injEq] at h
        rw [← h]
        refine ⟨hS₂, ?_, ?_, by rw [if_pos hdep]⟩
        · rw [hids₂, idsOf_pushNode, hb]
          simp only [travNode, mkD3]
          simp [List.append_assoc]
        · rw [hedg₂, edgesOf_pushNode, hb]
          simp only [travNode, mkD3]

theorem flattenRoots_char (maxD fuel : Nat) (roots : List Nat) :
    ∀ st st', aliasFree st.store → flattenRoots maxD fuel roots st = some st' →
      st'.store = st.store ∧
      idsOf st' = idsOf st ++ (roots.map (fun r => (travNode st.store (maxD + 1) r).1)).flatten ∧
      edgesOf st' = edgesOf st ++ (roots.map (fun r => (travNode st.store (maxD + 1) r).2)).flatten := by
  induction roots with
  | nil =>
    intro st st' _ h
    simp only [flattenRoots, Option.some.injEq] at h
    rw [← h]
    simp
  | cons r rs ih =>
    intro st st' hAF h
    simp only [flattenRoots] at h
    cases hr : processNode maxD fuel r 0 st with
    | none => rw [hr] at h; exact absurd h (by simp)
    | some rr =>
      rw [hr] at h
      obtain ⟨hS₁, hids₁, hedg₁, -⟩ := processNode_char maxD fuel r 0 st rr hAF hr
      obtain ⟨hS', hids', hedg'⟩ := ih rr.1 st' (by rw [hS₁]; exact hAF) h
      rw [hS₁] at hS' hids' hedg'
      have hb : maxD + 1 - 0 = maxD + 1 := by omega
      rw [hb] at hids₁ hedg₁
      refine ⟨hS', ?_, ?_⟩
      · rw [hids', hids₁, List.append_assoc]
        simp only [List.map_cons, List.flatten_cons]
      · rw [hedg', hedg₁, List.append_assoc]
        simp only [List.map_cons, List.flatten_cons]

theorem flatten_char (store : Store) (maxD fuel : Nat) (roots : List Nat) (st : FState)
    (hAF : aliasFree store) (h : flatten store maxD fuel roots = some st) :
    idsOf st = (travForest store maxD roots).1 ∧
    edgesOf st = (travForest store maxD roots).2 := by
  obtain ⟨-, hids, hedg⟩ := flattenRoots_char maxD fuel roots (initState store) st hAF h
  constructor
  · rw [hids]; rfl
  · rw [hedg]; rfl

/-! ### Edge combinatorics of the traversal -/

/-- Two (directed) endpoint pairs connect the same two ids, in either
direction. -/
def sameEnds (e1 e2 : String × String) : Prop :=
  (e1.1 = e2.1 ∧ e1.2 = e2.2) ∨ (e1.1 = e2.2 ∧ e1.2 = e2.1)

theorem travNode_head (store : Store) (b : Nat) (r : Nat) (hb : b ≠ 0) :
    (store.getD r defaultTNode).id ∈ (travNode store b r).1 := by
  cases b with
  | zero => exact absurd rfl hb
  | succ b => simp [travNode]

theorem travNode_edge_mem (store : Store) :
    ∀ (b r : Nat), ∀ e ∈ (travNode store b r).2,
      e.1 ∈ (travNode store b r).1 ∧ e.2 ∈ (travNode store b r).1 := by
  intro b
  induction b with
  | zero => intro r e he; simp [travNode] at he
  | succ b ih =>
    intro r e he
    simp only [travNode] at he ⊢
    rw [List.mem_flatten] at he
    obtain ⟨l, hl, hel⟩ := he
    rw [List.mem_map] at hl
    obtain ⟨c, hc, rfl⟩ := hl
    rw [List.mem_append] at hel
    cases hel with
    | inl h1 =>
      obtain ⟨ha, hb⟩ := ih c e h1
      constructor
      · exact List.mem_cons_of_mem _ (List.mem_flatten.mpr
          ⟨(travNode store b c).1, List.mem_map_of_mem _ hc, ha⟩)
      · exact List.mem_cons_of_mem _ (List.mem_flatten.mpr
          ⟨(travNode store b c).1, List.mem_map_of_mem _ hc, hb⟩)
    | inr h2 =>
      by_cases hb : b = 0
      · rw [if_pos hb] at h2; simp at h2
      · rw [if_neg hb] at h2
        simp only [List.mem_singleton] at h2
        subst h2
        constructor
        · exact List.mem_cons_self _ _
        · exact List.mem_cons_of_mem _ (List.mem_flatten.mpr
            ⟨(travNode store b c).1, List.mem_map_of_mem _ hc, travNode_head store b c hb⟩)

theorem travNode_pairwise (store : Store) :
    ∀ (b r : Nat), (travNode store b r).1.Nodup →
      (travNode store b r).2.Pairwise (fun e1 e2 => ¬ sameEnds e1 e2) := by
  intro b
  induction b with
  | zero => intro r _; simp [travNode]
  | succ b ih =>
    intro r hND
    simp only [travNode] at hND ⊢
    have hid : (store.getD r defaultTNode).id
        ∉ ((store.getD r defaultTNode).subThoughts.map
            (fun c => (travNode store b c).1)).flatten :=
      (List.nodup_cons.mp hND).1
    have hflat : (((store.getD r defaultTNode).subThoughts.map
        (fun c => (travNode store b c).1)).flatten).Nodup :=
      (List.nodup_cons.mp hND).2
    obtain ⟨hall, hdisj⟩ := List.nodup_flatten.mp hflat
    -- per-child Nodup of the node lists
    have hallc : ∀ c ∈ (store.getD r defaultTNode).subThoughts,
        (travNode store b c).1.Nodup := by
      intro c hc
      exact hall _ (List.mem_map_of_mem _ hc)
    rw [List.pairwise_flatten]
    constructor
    · -- within one child block
      intro l hl
      rw [List.mem_map] at hl
      obtain ⟨c, hc, rfl⟩ := hl
      rw [List.pairwise_append]
      refine ⟨ih c (hallc c hc), ?_, ?_⟩
      · by_cases hb : b = 0
        · rw [if_pos hb]; exact List.Pairwise.nil
        · rw [if_neg hb]; simp
      · intro e he e' he'
        by_cases hb : b = 0
        · rw [if_pos hb] at he'; simp at he'
        · rw [if_neg hb] at he'
          simp only [List.mem_singleton] at he'
          subst he'
          obtain ⟨h1, h2⟩ := travNode_edge_mem store b c e he
          have hidc : (store.getD r defaultTNode).id ∉ (travNode store b c).1 := by
            intro hmem
            exact hid (List.mem_flatten.mpr ⟨_, List.mem_map_of_mem _ hc, hmem⟩)
          rintro (⟨ha, -⟩ | ⟨-, hb'⟩)
          · have ha' : e.1 = (store.getD r defaultTNode).id := ha
            rw [ha'] at h1
            exact hidc h1
          · have hb'' : e.2 = (store.getD r defaultTNode).id := hb'
            rw [hb''] at h2
            exact hidc h2
    · -- across two child blocks
      have hdisj' : List.Pairwise
          (fun c₁ c₂ => List.Disjoint (travNode store b c₁).1 (travNode store b c₂).1)
          (store.getD r defaultTNode).subThoughts := by
        have := (List.pairwise_map).mp hdisj
        exact this
      rw [List.pairwise_map]
      refine List.Pairwise.imp_of_mem ?_ hdisj'
      intro c₁ c₂ hc₁ hc₂ hdisjc e he e' he'
      have hid1 : (store.getD r defaultTNode).id ∉ (travNode store b c₁).1 := by
        intro hmem
        exact hid (List.mem_flatten.mpr ⟨_, List.mem_map_of_mem _ hc₁, hmem⟩)
      have hid2 : (store.getD r defaultTNode).id ∉ (travNode store b c₂).1 := by
        intro hmem
        exact hid (List.mem_flatten.mpr ⟨_, List.mem_map_of_mem _ hc₂, hmem⟩)
      rw [List.mem_append] at he he'
      -- endpoints of `e`: both in block 1, or e = (r.id, c₁.id)
      -- endpoints of `e'`: both in block 2, or e' = (r.id, c₂.id)
      cases he with
      | inl he1 =>
        obtain ⟨ha1, hb1⟩ := travNode_edge_mem store b c₁ e he1
        cases he' with
        | inl he2 =>
          obtain ⟨ha2, hb2⟩ := travNode_edge_mem store b c₂ e' he2
          rintro (⟨hx, -⟩ | ⟨hx, -⟩)
          · exact hdisjc (hx ▸ ha1 : e'.1 ∈ _) ha2
          · exact hdisjc (hx ▸ ha1 : e'.2 ∈ _) hb2
        | inr he2 =>
          by_cases hb : b = 0
          · rw [if_pos hb] at he2; simp at he2
          · rw [if_neg hb] at he2
            simp only [List.mem_singleton] at he2
            subst he2
            rintro (⟨hx, -⟩ | ⟨-, hx⟩)
            · have hx' : e.1 = (store.getD r defaultTNode).id := hx
              rw [hx'] at ha1
              exact hid1 ha1
            · have hx' : e.2 = (store.getD r defaultTNode).id := hx
              rw [hx'] at hb1
              exact hid1 hb1
      | inr he1 =>
        by_cases hb : b = 0
        · rw [if_pos hb] at he1; simp at he1
        · rw [if_neg hb] at he1
          simp only [List.mem_singleton] at he1
          subst he1
          have hc1mem : (store.getD c₁ defaultTNode).id ∈ (travNode store b c₁).1 :=
            travNode_head store b c₁ hb
          cases he' with
          | inl he2 =>
            obtain ⟨ha2, hb2⟩ := travNode_edge_mem store b c₂ e' he2
            rintro (⟨hx, -⟩ | ⟨hx, -⟩)
            · have hx' : (store.getD r defaultTNode).id = e'.1 := hx
              rw [← hx'] at ha2
              exact hid2 ha2
            · have hx' : (store.getD r defaultTNode).id = e'.2 := hx
              rw [← hx'] at hb2
              exact hid2 hb2
          | inr he2 =>
            rw [if_neg hb] at he2
            simp only [List.mem_singleton] at he2
            subst he2
            rintro (⟨-, hx⟩ | ⟨hx, -⟩)
            · have hx' : (store.getD c₁ defaultTNode).id = (store.getD c₂ defaultTNode).id := hx
              rw [hx'] at hc1mem
              exact hdisjc hc1mem (travNode_head store b c₂ hb)
            · have hx' : (store.getD r defaultTNode).id = (store.getD c₂ defaultTNode).id := hx
              have hmem : (store.getD c₂ defaultTNode).id ∈ (travNode store b c₂).1 :=
                travNode_head store b c₂ hb
              rw [← hx'] at hmem
              exact hid2 hmem

theorem travForest_pairwise (store : Store) (maxD : Nat) (roots : List Nat)
    (h : (travForest store maxD roots).1.Nodup) :
    (travForest store maxD roots).2.Pairwise (fun e1 e2 => ¬ sameEnds e1 e2) := by
  unfold travForest at h ⊢
  obtain ⟨hall, hdisj⟩ := List.nodup_flatten.mp h
  rw [List.pairwise_flatten]
  constructor
  · intro l hl
    rw [List.mem_map] at hl
    obtain ⟨r, hr, rfl⟩ := hl
    exact travNode_pairwise store (maxD + 1) r (hall _ (List.mem_map_of_mem _ hr))
  · have hdisj' : List.Pairwise
        (fun r₁ r₂ => List.Disjoint (travNode store (maxD + 1) r₁).1
          (travNode store (maxD + 1) r₂).1) roots :=
      (List.pairwise_map).mp hdisj
    rw [List.pairwise_map]
    refine List.Pairwise.imp_of_mem ?_ hdisj'
    intro r₁ r₂ _ _ hdisjr e he e' he'
    obtain ⟨ha1, hb1⟩ := travNode_edge_mem store (maxD + 1) r₁ e he
    obtain ⟨ha2, hb2⟩ := travNode_edge_mem store (maxD + 1) r₂ e' he'
    rintro (⟨hx, -⟩ | ⟨hx, -⟩)
    · exact hdisjr (hx ▸ ha1 : e'.1 ∈ _) ha2
    · exact hdisjr (hx ▸ ha1 : e'.2 ∈ _) hb2

theorem flatten_map_nil {a b : Type} (l : List a) (f : a → List b)
    (hf : ∀ c, f c = []) : (l.map f).flatten = [] := by
  induction l with
  | nil => rfl
  | cons x t ih => simp [hf, ih]

theorem travNode_succ (store : Store) (b r : Nat) :
    travNode store (b + 1) r =
      ((store.getD r defaultTNode).id ::
          ((store.getD r defaultTNode).subThoughts.map
            (fun c => (travNode store b c).1)).flatten,
       ((store.getD r defaultTNode).subThoughts.map (fun c =>
          (travNode store b c).2 ++
            if b = 0 then []
            else [((store.getD r defaultTNode).id,
              (store.getD c defaultTNode).id)])).flatten) := rfl

theorem travNode_one (store : Store) (r : Nat) :
    travNode store 1 r = ([(store.getD r defaultTNode).id], []) := by
  rw [show (1 : Nat) = 0 + 1 from rfl, travNode_succ]
  rw [flatten_map_nil _ (fun c => (travNode store 0 c).1) (fun c => rfl),
    flatten_map_nil _ (fun c => (travNode store 0 c).2 ++
      if (0 : Nat) = 0 then []
      else [((store.getD r defaultTNode).id, (store.getD c defaultTNode).id)])
      (fun c => rfl)]

theorem flatten_map_travNode_one_fst (store : Store) (roots : List Nat) :
    (roots.map (fun r => (travNode store 1 r).1)).flatten
      = roots.map (fun r => (store.getD r defaultTNode).id) := by
  induction roots with
  | nil => rfl
  | cons r rs ih =>
    rw [List.map_cons, List.flatten_cons, ih, travNode_one]
    rfl

theorem flatten_map_travNode_one_snd (store : Store) (roots : List Nat) :
    ((roots.map (fun r => (travNode store 1 r).2)).flatten : List (String × String)) = [] := by
  induction roots with
  | nil => rfl
  | cons r rs ih =>
    rw [List.map_cons, List.flatten_cons, ih, travNode_one]
    rfl

/-! ### Amended claims C1, C2, C4 -/

/-- C1 amended: the flattener has no memo, so in general one GraphNode is
emitted per structural visit and ids can repeat (see the counterexample); what
holds is: for alias-free forests, the node list is exactly the depth-bounded
structural traversal, so it contains at most one GraphNode per distinct id
precisely when that traversal reaches each id at most once (e.g. disjoint
ownership trees with globally unique ids).  Only the alias-resolution step
reuses an existing GraphNode instead of creating a duplicate. -/
theorem c1_amended (store : Store) (maxD fuel : Nat) (roots : List Nat) (st : FState)
    (hAF : aliasFree store)
    (hND : (travForest store maxD roots).1.Nodup)
    (h : flatten store maxD fuel roots = some st) :
    (idsOf st).Nodup := by
  rw [(flatten_char store maxD fuel roots st hAF h).1]
  exact hND

/-- C1 amended witness at a concrete one-node heap. -/
theorem c1_amended_witness :
    aliasFree [{ defaultTNode with id := "r" }] ∧
    (travForest [{ defaultTNode with id := "r" }] 5 [0]).1.Nodup ∧
    (idsOf ⟨[{ defaultTNode with id := "r" }],
      [mkD3 0 { defaultTNode with id := "r" }], []⟩).Nodup :=
  ⟨by decide, by decide,
    c1_amended [{ defaultTNode with id := "r" }] 5 9 [0]
      ⟨[{ defaultTNode with id := "r" }], [mkD3 0 { defaultTNode with id := "r" }], []⟩
      (by decide) (by decide) (by decide)⟩

/-- C2 amended: the existing-link check sees only links already pushed when it
runs, so a node aliasing its tree parent, or two nodes aliasing each other,
yields two links between the same pair (see the counterexample); what holds is:
for alias-free forests whose depth-bounded traversal visits each id at most
once, no two links in the output connect the same unordered pair of ids. -/
theorem c2_amended (store : Store) (maxD fuel : Nat) (roots : List Nat) (st : FState)
    (hAF : aliasFree store)
    (hND : (travForest store maxD roots).1.Nodup)
    (h : flatten store maxD fuel roots = some st) :
    (st.d3Links.map edgeOf).Pairwise (fun e1 e2 => ¬ sameEnds e1 e2) := by
  have h2 := (flatten_char store maxD fuel roots st hAF h).2
  have hmap : st.d3Links.map edgeOf = edgesOf st := rfl
  rw [hmap, h2]
  exact travForest_pairwise store maxD roots hND

/-- C2 amended witness at a concrete two-node heap (one structural link). -/
theorem c2_amended_witness :
    aliasFree [{ defaultTNode with id := "r", subThoughts := [1] },
               { defaultTNode with id := "s" }] ∧
    ((⟨[{ defaultTNode with id := "r", subThoughts := [1] },
        { defaultTNode with id := "s" }],
       [mkD3 0 { defaultTNode with id := "r", subThoughts := [1] },
        mkD3 1 { defaultTNode with id := "s" }],
       [⟨mkD3 0 { defaultTNode with id := "r", subThoughts := [1] },
         mkD3 1 { defaultTNode with id := "s" }, false⟩]⟩ : FState).d3Links.map edgeOf).Pairwise
      (fun e1 e2 => ¬ sameEnds e1 e2) :=
  ⟨by decide,
    c2_amended [{ defaultTNode with id := "r", subThoughts := [1] },
                { defaultTNode with id := "s" }] 5 9 [0]
      ⟨[{ defaultTNode with id := "r", subThoughts := [1] },
        { defaultTNode with id := "s" }],
       [mkD3 0 { defaultTNode with id := "r", subThoughts := [1] },
        mkD3 1 { defaultTNode with id := "s" }],
       [⟨mkD3 0 { defaultTNode with id := "r", subThoughts := [1] },
         mkD3 1 { defaultTNode with id := "s" }, false⟩]⟩
      (by decide) (by decide) (by decide)⟩

/-- C4 amended: structural descent is truncated as claimed — with
`maxVisibleDepth = 0` and no aliases anywhere, the output is exactly one
GraphNode per root, in order, and no links.  The alias-resolution step,
however, runs at the aliasing node's own depth and can add non-root nodes even
at depth bound 0 (see the counterexample). -/
theorem c4_amended (store : Store) (fuel : Nat) (roots : List Nat) (st : FState)
    (hAF : aliasFree store)
    (h : flatten store 0 fuel roots = some st) :
    idsOf st = roots.map (fun r => (store.getD r defaultTNode).id) ∧
    st.d3Links = [] := by
  obtain ⟨hids, hedg⟩ := flatten_char store 0 fuel roots st hAF h
  constructor
  · rw [hids]
    unfold travForest
    exact flatten_map_travNode_one_fst store roots
  · have hmap : st.d3Links.map edgeOf = edgesOf st := rfl
    have : st.d3Links.map edgeOf = [] := by
      rw [hmap, hedg]
      unfold travForest
      exact flatten_map_travNode_one_snd store roots
    exact List.map_eq_nil_iff.mp this

/-- C4 amended witness: a root with one child at depth bound 0 keeps only the
root. -/
theorem c4_amended_witness :
    aliasFree [{ defaultTNode with id := "r", subThoughts := [1] },
               { defaultTNode with id := "s" }] ∧
    idsOf (⟨[{ defaultTNode with id := "r", subThoughts := [1] },
             { defaultTNode with id := "s" }],
            [mkD3 0 { defaultTNode with id := "r", subThoughts := [1] }], []⟩ : FState)
      = [0].map (fun r =>
          (([{ defaultTNode with id := "r", subThoughts := [1] },
             { defaultTNode with id := "s" }] : Store).getD r defaultTNode).id) :=
  ⟨by decide,
    (c4_amended [{ defaultTNode with id := "r", subThoughts := [1] },
                 { defaultTNode with id := "s" }] 9 [0]
      ⟨[{ defaultTNode with id := "r", subThoughts := [1] },
        { defaultTNode with id := "s" }],
       [mkD3 0 { defaultTNode with id := "r", subThoughts := [1] }], []⟩
      (by decide) (by decide)).1⟩

/-! ### Concrete heaps used as counterexamples -/

/-- C1 counterexample heap: node 0 has id "a" and aliases node 2; node 1 has
id "b" and owns node 2 as its only child; node 2 has id "c".  The forest
`[0, 1]` consists of two disjoint ownership trees, so tree ownership holds, and
node 2 is reachable both as an alias target (from node 0) and as a child (of
node 1). -/
def c1Store : Store :=
  [{ defaultTNode with id := "a", aliasNode := some 2 },
   { defaultTNode with id := "b", subThoughts := [2] },
   { defaultTNode with id := "c" }]

/-- C2 counterexample heap: node 0 (id "p") owns node 1 (id "q") as a child,
and node 1 aliases node 0 — an alias to an ancestor, the pattern the spec
sanctions for expressing recursion. -/
def c2Store : Store :=
  [{ defaultTNode with id := "p", subThoughts := [1] },
   { defaultTNode with id := "q", aliasNode := some 0 }]

/-- C4 counterexample heap: node 0 (id "a") owns node 1 (id "b") as a child and
also aliases it. -/
def c4Store : Store :=
  [{ defaultTNode with id := "a", subThoughts := [1], aliasNode := some 1 },
   { defaultTNode with id := "b" }]

/-- C5 counterexample heap: node 0 (id "a") aliases node 1 (id "b"), node 1
aliases node 0 back; node 1 appears in no `subThoughts` and in no root list, so
it is reachable only through node 0's alias. -/
def c5Store : Store :=
  [{ defaultTNode with id := "a", aliasNode := some 1 },
   { defaultTNode with id := "b", aliasNode := some 0 }]

/-- C9 counterexample heap: node 0 (id "x") owns node 1 (id "y") as a child,
and node 1 aliases its tree parent node 0. -/
def c9Store : Store :=
  [{ defaultTNode with id := "x", subThoughts := [1] },
   { defaultTNode with id := "y", aliasNode := some 0 }]

/-! ### Counterexample theorems -/

/-- C1 counterexample: flattening the forest `[0, 1]` of `c1Store` emits two
GraphNodes with id "c" (once via node 0's alias resolution, once as node 1's
child), refuting "at most one GraphNode per distinct ThoughtNode id"; the code
has no memo, so a node reachable both as an alias target and as a child is
duplicated. -/
theorem c1_counterexample :
    (flatten c1Store 5 9 [0, 1]).map (fun st => (idsOf st).count "c") = some 2 := by
  decide

/-- C2 counterexample: flattening `c2Store` (child "q" aliasing its parent
"p") produces two links whose endpoints are "p" and "q" — the alias link q→p
(pushed while the structural link does not yet exist) and the structural link
p→q (pushed after the child's call returns) — refuting "at most one GraphLink
between any pair of ids". -/
theorem c2_counterexample :
    (flatten c2Store 5 9 [0]).map
      (fun st => (st.d3Links.filter (linkMatches "p" "q")).length) = some 2 := by
  decide

/-- C4 counterexample: with `maxVisibleDepth = 0`, flattening `c4Store` outputs
the node "b" even though "b" is a child (member of the root's `subThoughts`)
and not a root: the root's alias to it is resolved at the root's own depth 0,
bypassing the truncation of structural descent.  This refutes "with
maxVisibleDepth = 0 the flattening outputs only GraphNodes for the root nodes
and no nodes from any root's subThoughts". -/
theorem c4_counterexample :
    (flatten c4Store 0 9 [0]).map idsOf = some ["a", "b"] := by
  decide

/-- C5 counterexample: in `c5Store`, node "b" is reachable only through node
"a"'s alias and indeed appears exactly once, but the output contains two alias
links between "a" and "b" (b→a is pushed during b's nested processing, before
a's own link a→b exists, so a's existing-link check did not prevent the
second), refuting "together with one alias GraphLink between A and B". -/
theorem c5_counterexample :
    (flatten c5Store 5 9 [0]).map
      (fun st => ((idsOf st).count "b", (st.d3Links.filter (linkMatches "a" "b")).length))
      = some (1, 2) := by
  decide

/-- C9 amended: the alias branch adds no link when a link between the two ids
already exists at the moment the check runs — so a parent aliasing its own
child yields only the structural link (second conjunct, for every pair of
ids); but a child whose `aliasNode` is its tree parent yields an alias
child→parent link in addition to the structural parent→child link (first
conjunct), because the structural link is pushed only after the child's call
returns and therefore is not yet visible to the child's check. -/
theorem c9_amended (x y : String) :
    (flatten [{ defaultTNode with id := x, subThoughts := [1] },
              { defaultTNode with id := y, aliasNode := some 0 }] 5 9 [0]).map
        (fun st => st.d3Links.map (fun l => (edgeOf l, l.isAlias)))
      = some [((y, x), true), ((x, y), false)] ∧
    (flatten [{ defaultTNode with id := x, subThoughts := [1], aliasNode := some 1 },
              { defaultTNode with id := y }] 5 9 [0]).map
        (fun st => st.d3Links.map (fun l => (edgeOf l, l.isAlias)))
      = some [((x, y), false)] := by
  constructor
  · simp [flatten, flattenRoots, initState, processNode, processNodeStep, processChildren,
      pushNode, pushLink, mkD3, linkMatches, edgeOf, defaultTNode, List.getD, List.find?]
  · simp [flatten, flattenRoots, initState, processNode, processNodeStep, processChildren,
      pushNode, pushLink, mkD3, linkMatches, edgeOf, defaultTNode, List.getD, List.find?]

/-- C9 counterexample: flattening `c9Store` (child "y" aliasing its tree parent
"x") yields the alias link y→x (isAlias = true) in addition to the structural
link x→y, refuting the claim that such a node yields only the structural link
with the alias relationship not marked anywhere: the structural link is pushed
only after the child's call returns, so the existing-link check inside the
child sees no link between the two ids. -/
theorem c9_counterexample :
    (flatten c9Store 5 9 [0]).map
      (fun st => st.d3Links.map (fun l => (edgeOf l, l.isAlias)))
      = some [(("y", "x"), true), (("x", "y"), false)] := by
  decide

/-! ### Claim C5: alias completeness

An unreachable alias target is visited through the alias branch, and exactly
once: every call on it is guarded by the failed `find?` lookup, and once its id
has been pushed the lookup always succeeds.  We track this with an invariant
threaded through the recursion. -/

theorem mem_idsOf_extends {s s' : FState} (h : StExtends s s') {i : String}
    (hm : i ∈ idsOf s) : i ∈ idsOf s' := by
  obtain ⟨-, ⟨t, hn⟩, -⟩ := h
  unfold idsOf at hm ⊢
  rw [hn, List.map_append]
  exact List.mem_append_left _ hm

theorem mem_links_extends {s s' : FState} (h : StExtends s s') {l : D3Link}
    (hm : l ∈ s.d3Links) : l ∈ s'.d3Links := by
  obtain ⟨-, -, ⟨t, hn⟩⟩ := h
  rw [hn]
  exact List.mem_append_left _ hm

theorem linkMatches_true_iff {a b : String} {l : D3Link} :
    linkMatches a b l = true ↔
      ((l.source.id = a ∧ l.target.id = b) ∨ (l.target.id = a ∧ l.source.id = b)) := by
  simp [linkMatches]

theorem find?_some_id {X : String} {l : List D3Node} {n : D3Node}
    (h : l.find? (fun m => m.id == X) = some n) : n ∈ l ∧ n.id = X := by
  refine ⟨List.mem_of_find?_eq_some h, ?_⟩
  have := List.find?_some h
  simpa using this

theorem getD_mem_of_lt (store : Store) {r : Nat} (h : r < store.length) :
    store.getD r defaultTNode ∈ store := by
  rw [List.getD_eq_getElem store defaultTNode h]
  exact store.getElem_mem h

theorem nodupIds_inj (store : Store) (HN : (store.map TNode.id).Nodup)
    {i j : Nat} (hi : i < store.length) (hj : j < store.length)
    (hid : (store.getD i defaultTNode).id = (store.getD j defaultTNode).id) : i = j := by
  have hi' : i < (store.map TNode.id).length := by simpa using hi
  have hj' : j < (store.map TNode.id).length := by simpa using hj
  have h1 : (store.map TNode.id)[i] = (store.getD i defaultTNode).id := by
    rw [List.getElem_map, List.getD_eq_getElem store defaultTNode hi]
  have h2 : (store.map TNode.id)[j] = (store.getD j defaultTNode).id := by
    rw [List.getElem_map, List.getD_eq_getElem store defaultTNode hj]
  exact (HN.getElem_inj_iff).mp (by rw [h1, h2, hid])

/-- The hypotheses of the alias-completeness claim, for target node `bIdx`
aliased only by node `aIdx`: all references are valid, node ids are globally
unique (the spec's id-uniqueness assumption), `bIdx` occurs in no `subThoughts`
and in no root list, and no node other than `aIdx` carries `aliasNode = bIdx`,
while `aIdx` does. -/
def C5Hyps (store : Store) (roots : List Nat) (aIdx bIdx : Nat) : Prop :=
  (∀ r ∈ roots, r < store.length) ∧
  (∀ n ∈ store, (∀ c ∈ n.subThoughts, c < store.length) ∧
    (∀ a, n.aliasNode = some a → a < store.length)) ∧
  (store.map TNode.id).Nodup ∧
  aIdx < store.length ∧
  bIdx < store.length ∧
  aIdx ≠ bIdx ∧
  (∀ n ∈ store, bIdx ∉ n.subThoughts) ∧
  bIdx ∉ roots ∧
  (∀ i, i < store.length → i ≠ aIdx →
    (store.getD i defaultTNode).aliasNode ≠ some bIdx) ∧
  (store.getD aIdx defaultTNode).aliasNode = some bIdx

instance (store : Store) (roots : List Nat) (aIdx bIdx : Nat) :
    Decidable (C5Hyps store roots aIdx bIdx) := by
  unfold C5Hyps
  infer_instance

/-- Run invariant for the alias-completeness argument: the heap is unchanged,
the target id occurs at most once in the node list, and any link connecting the
two ids certifies that the target id has been pushed. -/
def C5Inv (store : Store) (aIdx bIdx : Nat) (st : FState) : Prop :=
  st.store = store ∧
  (idsOf st).count (store.getD bIdx defaultTNode).id ≤ 1 ∧
  (∀ l ∈ st.d3Links,
    linkMatches (store.getD aIdx defaultTNode).id (store.getD bIdx defaultTNode).id l
      = true →
    (store.getD bIdx defaultTNode).id ∈ idsOf st)

theorem processChildren_c5 (store : Store) (aIdx bIdx : Nat)
    {f : Nat → FState → Option (FState × Option D3Node)}
    (hext : ∀ c s r, f c s = some r → StExtends s r.1)
    (hf : ∀ c s s' x, c < store.length → c ≠ bIdx → C5Inv store aIdx bIdx s →
      f c s = some (s', x) →
      C5Inv store aIdx bIdx s' ∧
      ((store.getD aIdx defaultTNode).id ∉ idsOf s →
        (store.getD aIdx defaultTNode).id ∈ idsOf s' →
        (store.getD bIdx defaultTNode).id ∈ idsOf s' ∧
        ∃ l ∈ s'.d3Links,
          linkMatches (store.getD aIdx defaultTNode).id
            (store.getD bIdx defaultTNode).id l = true) ∧
      (∀ d, x = some d → d.id ∈ idsOf s'))
    (parent : D3Node) :
    ∀ (cs : List Nat) (st st' : FState),
      (∀ c ∈ cs, c < store.length ∧ c ≠ bIdx) →
      parent.id ∈ idsOf st →
      C5Inv store aIdx bIdx st →
      processChildren f parent cs st = some st' →
      C5Inv store aIdx bIdx st' ∧
      ((store.getD aIdx defaultTNode).id ∉ idsOf st →
        (store.getD aIdx defaultTNode).id ∈ idsOf st' →
        (store.getD bIdx defaultTNode).id ∈ idsOf st' ∧
        ∃ l ∈ st'.d3Links, linkMatches (store.getD aIdx defaultTNode).id
          (store.getD bIdx defaultTNode).id l = true) := by
  intro cs
  induction cs with
  | nil =>
    intro st st' _ _ hInv h
    simp only [processChildren, Option.some.injEq] at h
    subst h
    exact ⟨hInv, fun h1 h2 => absurd h2 h1⟩
  | cons c cs ih =>
    intro st st' hcs hparent hInv h
    simp only [processChildren] at h
    cases hc : f c st with
    | none => rw [hc] at h; exact absurd h (by simp)
    | some rr =>
      rw [hc] at h
      obtain ⟨st₁, sub⟩ := rr
      obtain ⟨hcl, hcb⟩ := hcs c (List.mem_cons_self c cs)
      obtain ⟨hInv₁, hA₁, hx₁⟩ := hf c st st₁ sub hcl hcb hInv hc
      have hext₁ : StExtends st st₁ := hext c st _ hc
      have hcs' : ∀ y ∈ cs, y < store.length ∧ y ≠ bIdx :=
        fun y hy => hcs y (List.mem_cons_of_mem _ hy)
      cases sub with
      | none =>
        obtain ⟨hInv', hA'⟩ := ih st₁ st' hcs' (mem_idsOf_extends hext₁ hparent) hInv₁ h
        refine ⟨hInv', ?_⟩
        intro h1 h2
        by_cases hm : (store.getD aIdx defaultTNode).id ∈ idsOf st₁
        · obtain ⟨hb, l, hl, hml⟩ := hA₁ h1 hm
          have hext₂ : StExtends st₁ st' :=
            processChildren_extends (fun y s r hcc => hext y s r hcc) parent cs st₁ st' h
          exact ⟨mem_idsOf_extends hext₂ hb, l, mem_links_extends hext₂ hl, hml⟩
        · exact hA' hm h2
      | some subNode =>
        have hInv₂ : C5Inv store aIdx bIdx
            (pushLink st₁ ⟨parent, subNode, false⟩) := by
          obtain ⟨hS₁, hC₁, hL₁⟩ := hInv₁
          refine ⟨hS₁, hC₁, ?_⟩
          intro l hl hml
          have hl2 : l ∈ st₁.d3Links ++ [(⟨parent, subNode, false⟩ : D3Link)] := hl
          rcases List.mem_append.mp hl2 with hl' | hl'
          · exact hL₁ l hl' hml
          · simp only [List.mem_singleton] at hl'
            subst hl'
            rcases linkMatches_true_iff.mp hml with ⟨-, h2⟩ | ⟨-, h2⟩
            · -- target (the child D3Node) carries the target id
              have := hx₁ subNode rfl
              have h2' : subNode.id = (store.getD bIdx defaultTNode).id := h2
              rw [h2'] at this
              exact this
            · -- source (the parent D3Node) carries the target id
              have h2' : parent.id = (store.getD bIdx defaultTNode).id := h2
              have := mem_idsOf_extends hext₁ hparent
              rw [h2'] at this
              exact this
        have hparent₂ : parent.id ∈ idsOf (pushLink st₁ ⟨parent, subNode, false⟩) :=
          mem_idsOf_extends hext₁ hparent
        obtain ⟨hInv', hA'⟩ := ih (pushLink st₁ ⟨parent, subNode, false⟩) st'
          hcs' hparent₂ hInv₂ h
        refine ⟨hInv', ?_⟩
        intro h1 h2
        by_cases hm : (store.getD aIdx defaultTNode).id ∈ idsOf st₁
        · obtain ⟨hb, l, hl, hml⟩ := hA₁ h1 hm
          have hext₂ : StExtends st₁ st' :=
            (stExtends_pushLink st₁ _).trans
              (processChildren_extends (fun y s r hcc => hext y s r hcc) parent cs _ st' h)
          exact ⟨mem_idsOf_extends hext₂ hb, l, mem_links_extends hext₂ hl, hml⟩
        · exact hA' hm h2

theorem processNode_c5 (store : Store) (roots : List Nat) (maxD aIdx bIdx : Nat)
    (H : C5Hyps store roots aIdx bIdx) :
    ∀ (fuel ref depth : Nat) (st st' : FState) (x : Option D3Node),
      ref < store.length →
      C5Inv store aIdx bIdx st →
      (ref = bIdx → (store.getD bIdx defaultTNode).id ∉ idsOf st) →
      processNode maxD fuel ref depth st = some (st', x) →
      C5Inv store aIdx bIdx st' ∧
      ((store.getD aIdx defaultTNode).id ∉ idsOf st →
        (store.getD aIdx defaultTNode).id ∈ idsOf st' →
        (store.getD bIdx defaultTNode).id ∈ idsOf st' ∧
        ∃ l ∈ st'.d3Links, linkMatches (store.getD aIdx defaultTNode).id
          (store.getD bIdx defaultTNode).id l = true) ∧
      (∀ d, x = some d → d.id = (store.getD ref defaultTNode).id ∧ d.id ∈ idsOf st') ∧
      (depth ≤ maxD → x.isSome) := by
  obtain ⟨-, HV, HN, HaL, HbL, Hab, HbNC, -, HbOA, HA⟩ := H
  intro fuel
  induction fuel with
  | zero => intro ref depth st st' x _ _ _ h; exact absurd h (by simp [processNode])
  | succ fuel ih =>
    intro ref depth st st' x href hInv hok h
    have hSt : st.store = store := hInv.1
    rw [processNode] at h
    unfold processNodeStep at h
    rw [hSt] at h
    split at h
    next hd =>
      simp only [Option.some.injEq, Prod.mk.injEq] at h
      obtain ⟨h1, h2⟩ := h
      subst h1
      subst h2
      refine ⟨hInv, fun ha1 ha2 => absurd ha2 ha1, ?_, ?_⟩
      · intro d hd'; exact absurd hd' (by simp)
      · intro hle; exact absurd hle (by omega)
    next hd =>
      have hdep : depth ≤ maxD := Nat.le_of_not_lt hd
      have hnode_mem : store.getD ref defaultTNode ∈ store := getD_mem_of_lt store href
      have hids₁ : idsOf (pushNode st (mkD3 ref (store.getD ref defaultTNode)))
          = idsOf st ++ [(store.getD ref defaultTNode).id] := idsOf_pushNode st _
      have hInv₁ : C5Inv store aIdx bIdx
          (pushNode st (mkD3 ref (store.getD ref defaultTNode))) := by
        obtain ⟨-, hC, hL⟩ := hInv
        refine ⟨hSt, ?_, ?_⟩
        · rw [hids₁, List.count_append]
          by_cases hrb : ref = bIdx
          · subst hrb
            have h0 : (idsOf st).count (store.getD ref defaultTNode).id = 0 :=
              List.count_eq_zero.mpr (hok rfl)
            have h1 : ([(store.getD ref defaultTNode).id]).count
                (store.getD ref defaultTNode).id ≤ 1 :=
              le_trans (List.count_le_length _ _) (by simp)
            omega
          · have hne : (store.getD ref defaultTNode).id
                ≠ (store.getD bIdx defaultTNode).id :=
              fun he => hrb (nodupIds_inj store HN href HbL he)
            have h1 : ([(store.getD ref defaultTNode).id]).count
                (store.getD bIdx defaultTNode).id = 0 := by
              rw [List.count_eq_zero]
              simp only [List.mem_singleton]
              exact fun hh => hne hh.symm
            omega
        · intro l hl hml
          rw [hids₁]
          exact List.mem_append_left _ (hL l hl hml)
      split at h
      next hpc => exact absurd h (by simp)
      next st₂ hpc =>
        have hcs : ∀ c ∈ (store.getD ref defaultTNode).subThoughts,
            c < store.length ∧ c ≠ bIdx := by
          intro c hcm
          refine ⟨(HV _ hnode_mem).1 c hcm, ?_⟩
          intro hceq
          subst hceq
          exact HbNC _ hnode_mem hcm
        have hparent : (mkD3 ref (store.getD ref defaultTNode)).id
            ∈ idsOf (pushNode st (mkD3 ref (store.getD ref defaultTNode))) := by
          rw [idsOf_pushNode]
          exact List.mem_append_right _ (List.mem_singleton_self _)
        have hfchild : ∀ c s s' xx, c < store.length → c ≠ bIdx →
            C5Inv store aIdx bIdx s →
            processNode maxD fuel c (depth + 1) s = some (s', xx) →
            C5Inv store aIdx bIdx s' ∧
            ((store.getD aIdx defaultTNode).id ∉ idsOf s →
              (store.getD aIdx defaultTNode).id ∈ idsOf s' →
              (store.getD bIdx defaultTNode).id ∈ idsOf s' ∧
              ∃ l ∈ s'.d3Links,
                linkMatches (store.getD aIdx defaultTNode).id
                  (store.getD bIdx defaultTNode).id l = true) ∧
            (∀ d, xx = some d → d.id ∈ idsOf s') := by
          intro c s s' xx hcl hcb hInvs hcc
          obtain ⟨q1, q2, q3, -⟩ :=
            ih c (depth + 1) s s' xx hcl hInvs (fun hq => absurd hq hcb) hcc
          exact ⟨q1, q2, fun d hdd => (q3 d hdd).2⟩
        obtain ⟨hInv₂, hA₂⟩ := processChildren_c5 store aIdx bIdx
          (fun c s r hcc => processNode_extends maxD fuel c (depth + 1) s r hcc)
          hfchild (mkD3 ref (store.getD ref defaultTNode))
          (store.getD ref defaultTNode).subThoughts
          (pushNode st (mkD3 ref (store.getD ref defaultTNode))) st₂
          hcs hparent hInv₁ hpc
        have hS₂ : st₂.store = store := hInv₂.1
        have hextC : StExtends (pushNode st (mkD3 ref (store.getD ref defaultTNode))) st₂ :=
          processChildren_extends
            (fun c s r hcc => processNode_extends maxD fuel c (depth + 1) s r hcc)
            _ _ _ _ hpc
        have hnidin₂ : (store.getD ref defaultTNode).id ∈ idsOf st₂ :=
          mem_idsOf_extends hextC hparent
        have hrefA : (store.getD aIdx defaultTNode).id
              ∈ idsOf (pushNode st (mkD3 ref (store.getD ref defaultTNode))) →
            (store.getD aIdx defaultTNode).id ∉ idsOf st → ref = aIdx := by
          intro hm h1
          have hmm : (store.getD aIdx defaultTNode).id
              ∈ idsOf st ++ [(store.getD ref defaultTNode).id] := by
            rw [← hids₁]; exact hm
          rcases List.mem_append.mp hmm with hmem | hmem
          · exact absurd hmem h1
          · simp only [List.mem_singleton] at hmem
            exact (nodupIds_inj store HN HaL href hmem).symm
        rw [hS₂] at h
        split at h
        next hal =>
          simp only [Option.some.injEq, Prod.mk.injEq] at h
          obtain ⟨h1, h2⟩ := h
          subst h1
          subst h2
          refine ⟨hInv₂, ?_, ?_, by simp⟩
          · intro h1 h2
            by_cases hm : (store.getD aIdx defaultTNode).id
                ∈ idsOf (pushNode st (mkD3 ref (store.getD ref defaultTNode)))
            · exfalso
              have hra : ref = aIdx := hrefA hm h1
              subst ref
              rw [HA] at hal
              exact Option.noConfusion hal
            · exact hA₂ hm h2
          · intro d hdd
            simp only [Option.some.injEq] at hdd
            subst hdd
            exact ⟨rfl, hnidin₂⟩
        next aref hal =>
          have haref : aref < store.length := (HV _ hnode_mem).2 aref hal
          split at h
          next hlk =>
            simp only [Option.some.injEq, Prod.mk.injEq] at h
            obtain ⟨h1, h2⟩ := h
            subst h1
            subst h2
            refine ⟨hInv₂, ?_, ?_, by simp⟩
            · intro h1 h2
              by_cases hm : (store.getD aIdx defaultTNode).id
                  ∈ idsOf (pushNode st (mkD3 ref (store.getD ref defaultTNode)))
              · have hra : ref = aIdx := hrefA hm h1
                subst ref
                have harefb : aref = bIdx :=
                  Option.some.inj (hal.symm.trans HA)
                subst aref
                obtain ⟨l, hl, hml⟩ := List.any_eq_true.mp hlk
                exact ⟨hInv₂.2.2 l hl hml, l, hl, hml⟩
              · exact hA₂ hm h2
            · intro d hdd
              simp only [Option.some.injEq] at hdd
              subst hdd
              exact ⟨rfl, hnidin₂⟩
          next hlk =>
            split at h
            next aliasD3 hfd =>
              obtain ⟨hmem3, hid3⟩ := find?_some_id hfd
              have hid3' : aliasD3.id ∈ idsOf st₂ := by
                unfold idsOf
                exact List.mem_map_of_mem D3Node.id hmem3
              simp only [Option.some.injEq, Prod.mk.injEq] at h
              obtain ⟨h1, h2⟩ := h
              subst h1
              subst h2
              have hInv' : C5Inv store aIdx bIdx
                  (pushLink st₂ ⟨mkD3 ref (store.getD ref defaultTNode), aliasD3, true⟩) := by
                obtain ⟨-, hC, hL⟩ := hInv₂
                refine ⟨hS₂, hC, ?_⟩
                intro l hl hml
                have hl2 : l ∈ st₂.d3Links ++
                    [(⟨mkD3 ref (store.getD ref defaultTNode), aliasD3, true⟩ : D3Link)] := hl
                rcases List.mem_append.mp hl2 with hl' | hl'
                · exact hL l hl' hml
                · simp only [List.mem_singleton] at hl'
                  subst hl'
                  rcases linkMatches_true_iff.mp hml with ⟨-, hq⟩ | ⟨-, hq⟩
                  · have hq' : aliasD3.id = (store.getD bIdx defaultTNode).id := hq
                    rw [← hq']
                    exact hid3'
                  · have hq' : (mkD3 ref (store.getD ref defaultTNode)).id
                        = (store.getD bIdx defaultTNode).id := hq
                    rw [← hq']
                    exact hnidin₂
              refine ⟨hInv', ?_, ?_, by simp⟩
              · intro h1 h2
                by_cases hm : (store.getD aIdx defaultTNode).id
                    ∈ idsOf (pushNode st (mkD3 ref (store.getD ref defaultTNode)))
                · have hra : ref = aIdx := hrefA hm h1
                  subst ref
                  have harefb : aref = bIdx :=
                    Option.some.inj (hal.symm.trans HA)
                  subst aref
                  have hidb : aliasD3.id = (store.getD bIdx defaultTNode).id := hid3
                  refine ⟨by rw [← hidb]; exact hid3', ?_⟩
                  refine ⟨⟨mkD3 aIdx (store.getD aIdx defaultTNode), aliasD3, true⟩, ?_, ?_⟩
                  · exact List.mem_append_right _ (List.mem_singleton_self _)
                  · exact linkMatches_true_iff.mpr (Or.inl ⟨rfl, hidb⟩)
                · obtain ⟨hb, l, hl, hml⟩ := hA₂ hm h2
                  exact ⟨hb, l, List.mem_append_left _ hl, hml⟩
              · intro d hdd
                simp only [Option.some.injEq] at hdd
                subst hdd
                exact ⟨rfl, hnidin₂⟩
            next hfd =>
              have hokB : aref = bIdx →
                  (store.getD bIdx defaultTNode).id ∉ idsOf st₂ := by
                intro he
                subst he
                exact find?_eq_none_not_mem hfd
              split at h
              next hrc => exact absurd h (by simp)
              next st₃ aliasD3 hrc =>
                have hrc' : processNode maxD fuel aref depth st₂
                    = some (st₃, some aliasD3) := hrc
                obtain ⟨hInv₃, hA₃, hx₃, -⟩ :=
                  ih aref depth st₂ st₃ (some aliasD3) haref hInv₂ hokB hrc'
                have hext₃ : StExtends st₂ st₃ :=
                  processNode_extends maxD fuel aref depth st₂ _ hrc'
                have hnidin₃ : (store.getD ref defaultTNode).id ∈ idsOf st₃ :=
                  mem_idsOf_extends hext₃ hnidin₂
                obtain ⟨hxid, hxmem⟩ := hx₃ aliasD3 rfl
                simp only [Option.some.injEq, Prod.mk.injEq] at h
                obtain ⟨h1, h2⟩ := h
                subst h1
                subst h2
                have hInv' : C5Inv store aIdx bIdx
                    (pushLink st₃ ⟨mkD3 ref (store.getD ref defaultTNode), aliasD3, true⟩) := by
                  obtain ⟨hS₃, hC, hL⟩ := hInv₃
                  refine ⟨hS₃, hC, ?_⟩
                  intro l hl hml
                  have hl2 : l ∈ st₃.d3Links ++
                      [(⟨mkD3 ref (store.getD ref defaultTNode), aliasD3, true⟩ : D3Link)] := hl
                  rcases List.mem_append.mp hl2 with hl' | hl'
                  · exact hL l hl' hml
                  · simp only [List.mem_singleton] at hl'
                    subst hl'
                    rcases linkMatches_true_iff.mp hml with ⟨-, hq⟩ | ⟨-, hq⟩
                    · have hq' : aliasD3.id = (store.getD bIdx defaultTNode).id := hq
                      rw [← hq']
                      exact hxmem
                    · have hq' : (mkD3 ref (store.getD ref defaultTNode)).id
                          = (store.getD bIdx defaultTNode).id := hq
                      rw [← hq']
                      exact hnidin₃
                refine ⟨hInv', ?_, ?_, by simp⟩
                · intro h1 h2
                  by_cases hm : (store.getD aIdx defaultTNode).id
                      ∈ idsOf (pushNode st (mkD3 ref (store.getD ref defaultTNode)))
                  · have hra : ref = aIdx := hrefA hm h1
                    subst ref
                    have harefb : aref = bIdx :=
                      Option.some.inj (hal.symm.trans HA)
                    subst aref
                    have hidb : aliasD3.id = (store.getD bIdx defaultTNode).id := hxid
                    refine ⟨by rw [← hidb]; exact hxmem, ?_⟩
                    refine ⟨⟨mkD3 aIdx (store.getD aIdx defaultTNode), aliasD3, true⟩, ?_, ?_⟩
                    · exact List.mem_append_right _ (List.mem_singleton_self _)
                    · exact linkMatches_true_iff.mpr (Or.inl ⟨rfl, hidb⟩)
                  · by_cases hm2 : (store.getD aIdx defaultTNode).id ∈ idsOf st₂
                    · obtain ⟨hb, l, hl, hml⟩ := hA₂ hm hm2
                      exact ⟨mem_idsOf_extends hext₃ hb, l,
                        List.mem_append_left _ (mem_links_extends hext₃ hl), hml⟩
                    · obtain ⟨hb, l, hl, hml⟩ := hA₃ hm2 h2
                      exact ⟨hb, l, List.mem_append_left _ hl, hml⟩
                · intro d hdd
                  simp only [Option.some.injEq] at hdd
                  subst hdd
                  exact ⟨rfl, hnidin₃⟩
              next st₃ hrc =>
                have hrc' : processNode maxD fuel aref depth st₂
                    = some (st₃, none) := hrc
                obtain ⟨-, -, -, hsome₃⟩ :=
                  ih aref depth st₂ st₃ none haref hInv₂ hokB hrc'
                exact absurd (hsome₃ hdep) (by simp)

theorem flattenRoots_c5 (store : Store) (roots : List Nat) (maxD aIdx bIdx fuel : Nat)
    (H : C5Hyps store roots aIdx bIdx) :
    ∀ (rs : List Nat), (∀ r ∈ rs, r < store.length ∧ r ≠ bIdx) →
      ∀ st st', C5Inv store aIdx bIdx st →
      ((store.getD aIdx defaultTNode).id ∈ idsOf st →
        (store.getD bIdx defaultTNode).id ∈ idsOf st ∧
        ∃ l ∈ st.d3Links, linkMatches (store.getD aIdx defaultTNode).id
          (store.getD bIdx defaultTNode).id l = true) →
      flattenRoots maxD fuel rs st = some st' →
      C5Inv store aIdx bIdx st' ∧
      ((store.getD aIdx defaultTNode).id ∈ idsOf st' →
        (store.getD bIdx defaultTNode).id ∈ idsOf st' ∧
        ∃ l ∈ st'.d3Links, linkMatches (store.getD aIdx defaultTNode).id
          (store.getD bIdx defaultTNode).id l = true) := by
  intro rs
  induction rs with
  | nil =>
    intro _ st st' hInv hQ h
    simp only [flattenRoots, Option.some.injEq] at h
    subst h
    exact ⟨hInv, hQ⟩
  | cons r rs ih =>
    intro hrs st st' hInv hQ h
    simp only [flattenRoots] at h
    cases hr : processNode maxD fuel r 0 st with
    | none => rw [hr] at h; exact absurd h (by simp)
    | some rr =>
      rw [hr] at h
      obtain ⟨hrl, hrb⟩ := hrs r (List.mem_cons_self r rs)
      obtain ⟨hInv₁, hA₁, -, -⟩ := processNode_c5 store roots maxD aIdx bIdx H
        fuel r 0 st rr.1 rr.2 hrl hInv (fun hq => absurd hq hrb) (by rw [← hr])
      have hext₁ : StExtends st rr.1 := processNode_extends maxD fuel r 0 st rr hr
      have hQ₁ : (store.getD aIdx defaultTNode).id ∈ idsOf rr.1 →
          (store.getD bIdx defaultTNode).id ∈ idsOf rr.1 ∧
          ∃ l ∈ rr.1.d3Links, linkMatches (store.getD aIdx defaultTNode).id
            (store.getD bIdx defaultTNode).id l = true := by
        intro hin
        by_cases hm : (store.getD aIdx defaultTNode).id ∈ idsOf st
        · obtain ⟨hb, l, hl, hml⟩ := hQ hm
          exact ⟨mem_idsOf_extends hext₁ hb, l, mem_links_extends hext₁ hl, hml⟩
        · exact hA₁ hm hin
      exact ih (fun y hy => hrs y (List.mem_cons_of_mem _ hy)) rr.1 st' hInv₁ hQ₁ h

/-- C5 amended: under the claim's hypotheses (B referenced only as A's alias
target: valid references, globally unique ids, B in no `subThoughts` and not a
root, no node but A carrying `aliasNode = B`), whenever A is visited (A's id is
in the output), B appears in the output node list exactly once — added by the
alias-resolution step — and at least one GraphLink connects A's and B's ids.
The claim's stronger "together with one alias GraphLink" fails: when B aliases
A back, two alias links are produced (see the counterexample). -/
theorem c5_amended (store : Store) (roots : List Nat) (maxD fuel aIdx bIdx : Nat)
    (st : FState)
    (H : C5Hyps store roots aIdx bIdx)
    (h : flatten store maxD fuel roots = some st)
    (ha : (store.getD aIdx defaultTNode).id ∈ idsOf st) :
    (idsOf st).count (store.getD bIdx defaultTNode).id = 1 ∧
    ∃ l ∈ st.d3Links, linkMatches (store.getD aIdx defaultTNode).id
      (store.getD bIdx defaultTNode).id l = true := by
  have hroots : ∀ r ∈ roots, r < store.length ∧ r ≠ bIdx := by
    intro r hrm
    refine ⟨H.1 r hrm, ?_⟩
    intro he
    subst he
    exact H.2.2.2.2.2.2.2.1 hrm
  have hInit : C5Inv store aIdx bIdx (initState store) := by
    refine ⟨rfl, ?_, ?_⟩
    · simp [idsOf, initState]
    · intro l hl
      simp [initState] at hl
  have hQ0 : (store.getD aIdx defaultTNode).id ∈ idsOf (initState store) →
      (store.getD bIdx defaultTNode).id ∈ idsOf (initState store) ∧
      ∃ l ∈ (initState store).d3Links, linkMatches (store.getD aIdx defaultTNode).id
        (store.getD bIdx defaultTNode).id l = true := by
    intro hx
    simp [idsOf, initState] at hx
  obtain ⟨hInv', hQ'⟩ := flattenRoots_c5 store roots maxD aIdx bIdx fuel H
    roots hroots (initState store) st hInit hQ0 h
  obtain ⟨hb, l, hl, hml⟩ := hQ' ha
  refine ⟨?_, l, hl, hml⟩
  have h1 : 0 < (idsOf st).count (store.getD bIdx defaultTNode).id :=
    List.count_pos_iff.mpr hb
  have h2 := hInv'.2.1
  omega

/-- C5 amended witness: a single root "a" aliasing the otherwise unreferenced
node "b" yields "b" exactly once. -/
theorem c5_amended_witness :
    C5Hyps [{ defaultTNode with id := "a", aliasNode := some 1 },
            { defaultTNode with id := "b" }] [0] 0 1 ∧
    (idsOf ⟨[{ defaultTNode with id := "a", aliasNode := some 1 },
             { defaultTNode with id := "b" }],
      [mkD3 0 { defaultTNode with id := "a", aliasNode := some 1 },
       mkD3 1 { defaultTNode with id := "b" }],
      [⟨mkD3 0 { defaultTNode with id := "a", aliasNode := some 1 },
        mkD3 1 { defaultTNode with id := "b" }, true⟩]⟩).count
      (([{ defaultTNode with id := "a", aliasNode := some 1 },
          { defaultTNode with id := "b" }] : Store).getD 1 defaultTNode).id = 1 :=
  ⟨by decide,
    (c5_amended [{ defaultTNode with id := "a", aliasNode := some 1 },
                 { defaultTNode with id := "b" }] [0] 0 9 0 1
      ⟨[{ defaultTNode with id := "a", aliasNode := some 1 },
        { defaultTNode with id := "b" }],
       [mkD3 0 { defaultTNode with id := "a", aliasNode := some 1 },
        mkD3 1 { defaultTNode with id := "b" }],
       [⟨mkD3 0 { defaultTNode with id := "a", aliasNode := some 1 },
         mkD3 1 { defaultTNode with id := "b" }, true⟩]⟩
      (by decide) (by decide) (by decide)).1⟩

end RCCT
